import Mathlib

/-!
Numeric kernels of `array_processor.cpp`.

A shallow embedding of the kernels of `src/cpp/array_processor.cpp`.

* A `uint32_t` buffer is a `List Nat` whose entries are below `2 ^ 32`
  (`IsU32Buf`); every kernel takes the buffer and its `length` argument, as
  the C entry point does.
* `uint32_t` / `uint64_t` arithmetic on values is written with an explicit
  `% 2 ^ 32` / `% 2 ^ 64`.
* Loop counters are natural numbers.  The buffers live in the 32-bit linear
  memory of the WebAssembly module, so a `uint32_t` buffer has fewer than
  `2 ^ 30` elements and the counter expressions `i + 1`, `i + 4` and
  `length - 1 - i` of the source stay inside `uint32_t`.
* A counting loop `for (; i < length; i++)` is a recursion on the number of
  iterations that remain, carrying the counter `i`; the four-at-a-time loop
  `for (; i + 4 <= length; i += 4)` likewise, on `(length - i) / 4`.
* `int` indices (`partition`, `quickSort`, `binarySearch`) are integers;
  the conversion of a `uint32_t` to `int` is `toInt32`.
* A `v128_t` holding four 32-bit lanes is `V128`; the intrinsics of
  `wasm_simd128.h` act lane by lane, modulo `2 ^ 32`.
* `float` and `double` values live in a type `R` with the operations used:
  a commutative ring or field for exact arithmetic, or `F32`, which adds the
  infinities and NaN of IEEE 754.
* A buffer access through a `uint32_t` counter uses `List.getD` and `List.set`;
  the statements that depend on the buffer being large enough say so.
-/

namespace ArrayProcessor

/-! ## Machine integers and the buffer model -/

/-- Every entry of the buffer is a `uint32_t` value. -/
def IsU32Buf (arr : List Nat) : Prop := ∀ x ∈ arr, x < 2 ^ 32

instance (arr : List Nat) : Decidable (IsU32Buf arr) := by
  unfold IsU32Buf; infer_instance

/-- Conversion of a `uint32_t` value to `int` (two's complement). -/
def toInt32 (n : Nat) : Int :=
  if n % 2 ^ 32 < 2 ^ 31 then ((n % 2 ^ 32 : Nat) : Int)
  else ((n % 2 ^ 32 : Nat) : Int) - 2 ^ 32

/-- The `uint32_t` expression `length - 1`. -/
def u32Pred (length : Nat) : Nat := (length + 2 ^ 32 - 1) % 2 ^ 32

/-! ## The 128-bit vector of four 32-bit lanes -/

/-- A `v128_t` seen as four unsigned 32-bit lanes. -/
structure V128 where
  l0 : Nat
  l1 : Nat
  l2 : Nat
  l3 : Nat

/-- The intrinsic `wasm_i32x4_splat`. -/
def wasm_i32x4_splat (x : Nat) : V128 := ⟨x, x, x, x⟩

/-- The intrinsic `wasm_v128_load(&arr[i])`: lanes `arr[i] .. arr[i+3]`. -/
def wasm_v128_load (arr : List Nat) (i : Nat) : V128 :=
  ⟨arr.getD i 0, arr.getD (i + 1) 0, arr.getD (i + 2) 0, arr.getD (i + 3) 0⟩

/-- The intrinsic `wasm_v128_store(&arr[i], v)`. -/
def wasm_v128_store (arr : List Nat) (i : Nat) (v : V128) : List Nat :=
  (((arr.set i v.l0).set (i + 1) v.l1).set (i + 2) v.l2).set (i + 3) v.l3

/-- The intrinsic `wasm_i32x4_add`: lane-wise sum modulo `2 ^ 32`. -/
def wasm_i32x4_add (a b : V128) : V128 :=
  ⟨(a.l0 + b.l0) % 2 ^ 32, (a.l1 + b.l1) % 2 ^ 32,
   (a.l2 + b.l2) % 2 ^ 32, (a.l3 + b.l3) % 2 ^ 32⟩

/-- The intrinsic `wasm_i32x4_mul`: lane-wise product modulo `2 ^ 32`. -/
def wasm_i32x4_mul (a b : V128) : V128 :=
  ⟨(a.l0 * b.l0) % 2 ^ 32, (a.l1 * b.l1) % 2 ^ 32,
   (a.l2 * b.l2) % 2 ^ 32, (a.l3 * b.l3) % 2 ^ 32⟩

/-- The intrinsic `wasm_u32x4_max`: lane-wise unsigned maximum. -/
def wasm_u32x4_max (a b : V128) : V128 :=
  ⟨if a.l0 < b.l0 then b.l0 else a.l0, if a.l1 < b.l1 then b.l1 else a.l1,
   if a.l2 < b.l2 then b.l2 else a.l2, if a.l3 < b.l3 then b.l3 else a.l3⟩

/-- The intrinsic `wasm_u32x4_min`: lane-wise unsigned minimum. -/
def wasm_u32x4_min (a b : V128) : V128 :=
  ⟨if b.l0 < a.l0 then b.l0 else a.l0, if b.l1 < a.l1 then b.l1 else a.l1,
   if b.l2 < a.l2 then b.l2 else a.l2, if b.l3 < a.l3 then b.l3 else a.l3⟩

/-- The intrinsic `wasm_u32x4_gt`: a lane is `0xFFFFFFFF` where `a > b`
(unsigned), `0` elsewhere. -/
def wasm_u32x4_gt (a b : V128) : V128 :=
  ⟨if b.l0 < a.l0 then 2 ^ 32 - 1 else 0, if b.l1 < a.l1 then 2 ^ 32 - 1 else 0,
   if b.l2 < a.l2 then 2 ^ 32 - 1 else 0, if b.l3 < a.l3 then 2 ^ 32 - 1 else 0⟩

/-- The four lanes after `wasm_v128_store(lanes, v)` into `uint32_t lanes[4]`. -/
def lanesOf (v : V128) : List Nat := [v.l0, v.l1, v.l2, v.l3]

/-! ## Scalar aggregate kernels -/

/-- Loop of `sumArray`: `n` iterations remain, `i` is the counter, `sum` the
64-bit accumulator. -/
def sumArrayLoop (arr : List Nat) : Nat → Nat → Nat → Nat
  | 0, _, sum => sum
  | n + 1, i, sum => sumArrayLoop arr n (i + 1) ((sum + arr.getD i 0) % 2 ^ 64)

/-- The kernel `sumArray(arr, length)`. -/
def sumArray (arr : List Nat) (length : Nat) : Nat :=
  sumArrayLoop arr length 0 0

/-- Loop `if (arr[i] > max) max = arr[i];` over `n` consecutive indices from
`i`.  The same body is the main loop of `findMax`, the lane loop and the
remainder loop of `findMaxSIMD`. -/
def findMaxLoop (arr : List Nat) : Nat → Nat → Nat → Nat
  | 0, _, max => max
  | n + 1, i, max =>
      findMaxLoop arr n (i + 1) (if arr.getD i 0 > max then arr.getD i 0 else max)

/-- The kernel `findMax(arr, length)`. -/
def findMax (arr : List Nat) (length : Nat) : Nat :=
  if length = 0 then 0
  else findMaxLoop arr (length - 1) 1 (arr.getD 0 0)

/-- Loop `if (arr[i] < min) min = arr[i];` over `n` consecutive indices from
`i` (main loop of `findMin`, lane loop and remainder loop of `findMinSIMD`). -/
def findMinLoop (arr : List Nat) : Nat → Nat → Nat → Nat
  | 0, _, min => min
  | n + 1, i, min =>
      findMinLoop arr n (i + 1) (if arr.getD i 0 < min then arr.getD i 0 else min)

/-- The kernel `findMin(arr, length)`. -/
def findMin (arr : List Nat) (length : Nat) : Nat :=
  if length = 0 then 0
  else findMinLoop arr (length - 1) 1 (arr.getD 0 0)

/-- Loop `if (arr[i] > threshold) count++;` over `n` consecutive indices from
`i`, `count` being a `uint32_t`. -/
def countGreaterThanLoop (arr : List Nat) (threshold : Nat) : Nat → Nat → Nat → Nat
  | 0, _, count => count
  | n + 1, i, count =>
      countGreaterThanLoop arr threshold n (i + 1)
        (if arr.getD i 0 > threshold then (count + 1) % 2 ^ 32 else count)

/-- The kernel `countGreaterThan(arr, length, threshold)`. -/
def countGreaterThan (arr : List Nat) (length threshold : Nat) : Nat :=
  countGreaterThanLoop arr threshold length 0 0

/-! ## Elementwise mutators -/

/-- Loop `arr[i] *= factor;` over `n` consecutive indices from `i`. -/
def multiplyLoop (factor : Nat) : Nat → Nat → List Nat → List Nat
  | 0, _, arr => arr
  | n + 1, i, arr =>
      multiplyLoop factor n (i + 1) (arr.set i ((arr.getD i 0 * factor) % 2 ^ 32))

/-- The kernel `multiplyArray(arr, length, factor)`; the result is the buffer
after the call. -/
def multiplyArray (arr : List Nat) (length factor : Nat) : List Nat :=
  multiplyLoop factor length 0 arr

/-- Loop `arr[i] += value;` over `n` consecutive indices from `i`. -/
def addLoop (value : Nat) : Nat → Nat → List Nat → List Nat
  | 0, _, arr => arr
  | n + 1, i, arr =>
      addLoop value n (i + 1) (arr.set i ((arr.getD i 0 + value) % 2 ^ 32))

/-- The kernel `addToArray(arr, length, value)`; the result is the buffer
after the call. -/
def addToArray (arr : List Nat) (length value : Nat) : List Nat :=
  addLoop value length 0 arr

/-- The call `std::swap(arr[i], arr[j])` on `uint32_t` indices. -/
def swapIdx (arr : List Nat) (i j : Nat) : List Nat :=
  (arr.set i (arr.getD j 0)).set j (arr.getD i 0)

/-- Loop of `reverseArray`: `std::swap(arr[i], arr[length - 1 - i])`. -/
def reverseLoop (length : Nat) : Nat → Nat → List Nat → List Nat
  | 0, _, arr => arr
  | n + 1, i, arr => reverseLoop length n (i + 1) (swapIdx arr i (length - 1 - i))

/-- The kernel `reverseArray(arr, length)`; the result is the buffer after the
call. -/
def reverseArray (arr : List Nat) (length : Nat) : List Nat :=
  reverseLoop length (length / 2) 0 arr

/-! ## Sort and search kernels

Accesses through an `int` index are checked: a read or write outside the
allocation makes the kernel return `none`, as does running out of loop fuel. -/

/-- Read `a[i]` through an `int` index. -/
def readAt {α : Type} (a : List α) (i : Int) : Option α :=
  if 0 ≤ i then a[i.toNat]? else none

/-- Write `a[i] = v` through an `int` index. -/
def writeAt {α : Type} (a : List α) (i : Int) (v : α) : Option (List α) :=
  if 0 ≤ i ∧ i.toNat < a.length then some (a.set i.toNat v) else none

/-- The call `std::swap(arr[i], arr[j])` on `int` indices. -/
def swapAt (arr : List Nat) (i j : Int) : Option (List Nat) := do
  let a ← readAt arr i
  let b ← readAt arr j
  let arr ← writeAt arr i b
  writeAt arr j a

/-- Loop of `partition`: `for (j = low; j < high; j++)`, `n` iterations
remaining; returns the buffer and `i`. -/
def partitionLoop (pivot : Nat) : Nat → List Nat → Int → Int → Option (List Nat × Int)
  | 0, arr, i, _ => some (arr, i)
  | n + 1, arr, i, j => do
      let aj ← readAt arr j
      if aj ≤ pivot then
        let arr ← swapAt arr (i + 1) j
        partitionLoop pivot n arr (i + 1) (j + 1)
      else
        partitionLoop pivot n arr i (j + 1)

/-- The helper `partition(arr, low, high)`: the buffer after the call and the
returned pivot index. -/
def partition (arr : List Nat) (low high : Int) : Option (List Nat × Int) := do
  let pivot ← readAt arr high
  let r ← partitionLoop pivot (high - low).toNat arr (low - 1) low
  let arr ← swapAt r.1 (r.2 + 1) high
  some (arr, r.2 + 1)

/-- The statement pair `stack[++top] = a; stack[++top] = b;`. -/
def push2 (stack : List Int) (top : Int) (a b : Int) : Option (List Int × Int) := do
  let stack ← writeAt stack (top + 1) a
  let stack ← writeAt stack (top + 2) b
  some (stack, top + 2)

/-- One iteration of the `while (top >= 0)` body of `quickSort`. -/
def quickSortStep (arr : List Nat) (stack : List Int) (top : Int) :
    Option (List Nat × List Int × Int) := do
  let high ← readAt stack top
  let low ← readAt stack (top - 1)
  let top := top - 2
  let r ← partition arr low high
  let pi := r.2
  let s ← if pi - 1 > low then push2 stack top low (pi - 1) else some (stack, top)
  let s ← if pi + 1 < high then push2 s.1 s.2 (pi + 1) high else some s
  some (r.1, s.1, s.2)

/-- The loop `while (top >= 0)` of `quickSort`, at most `fuel` iterations. -/
def quickSortLoop : Nat → List Nat → List Int → Int → Option (List Nat)
  | 0, _, _, _ => none
  | fuel + 1, arr, stack, top =>
      if 0 ≤ top then do
        let s ← quickSortStep arr stack top
        quickSortLoop fuel s.1 s.2.1 s.2.2
      else some arr

/-- The kernel `quickSort(arr, length)` with loop fuel; the result is the
buffer after the call.  The fresh `new int[length]` is taken zero-filled (no
entry is read before it is written). -/
def quickSortFuel (fuel : Nat) (arr : List Nat) (length : Nat) : Option (List Nat) :=
  if length ≤ 1 then some arr
  else do
    let stack : List Int := List.replicate length 0
    let s ← push2 stack (-1) 0 (toInt32 (u32Pred length))
    quickSortLoop fuel arr s.1 s.2

/-- The kernel `quickSort(arr, length)`: `length` loop iterations suffice. -/
def quickSort (arr : List Nat) (length : Nat) : Option (List Nat) :=
  quickSortFuel length arr length

/-- The state `(arr, stack, top)` of `quickSort` (for `length > 1`) after the
two initial pushes and `k` further iterations of the `while (top >= 0)` loop;
once the loop has ended the state stays as it is. -/
def quickSortIter (arr : List Nat) (length : Nat) : Nat → Option (List Nat × List Int × Int)
  | 0 => do
      let stack : List Int := List.replicate length 0
      let s ← push2 stack (-1) 0 (toInt32 (u32Pred length))
      some (arr, s.1, s.2)
  | k + 1 => do
      let s ← quickSortIter arr length k
      if 0 ≤ s.2.2 then quickSortStep s.1 s.2.1 s.2.2 else some s

/-- The loop `while (left <= right)` of `binarySearch`, at most `fuel`
iterations. -/
def binarySearchLoop (arr : List Nat) (target : Nat) : Nat → Int → Int → Option Int
  | 0, _, _ => none
  | fuel + 1, left, right =>
      if left ≤ right then do
        let mid := left + (right - left).tdiv 2
        let v ← readAt arr mid
        if v = target then some mid
        else if v < target then binarySearchLoop arr target fuel (mid + 1) right
        else binarySearchLoop arr target fuel left (mid - 1)
      else some (-1)

/-- The kernel `binarySearch(arr, length, target)` with loop fuel. -/
def binarySearchFuel (fuel : Nat) (arr : List Nat) (length target : Nat) : Option Int :=
  binarySearchLoop arr target fuel 0 (toInt32 (u32Pred length))

/-- The kernel `binarySearch(arr, length, target)`: `length + 1` loop
iterations suffice. -/
def binarySearch (arr : List Nat) (length target : Nat) : Option Int :=
  binarySearchFuel (length + 1) arr length target

/-- Copy loop of `countUnique`: `temp[i] = arr[i];`. -/
def copyLoop (arr : List Nat) : Nat → Nat → List Nat → List Nat
  | 0, _, temp => temp
  | n + 1, i, temp => copyLoop arr n (i + 1) (temp.set i (arr.getD i 0))

/-- Counting loop of `countUnique`: `if (temp[i] != temp[i - 1]) unique++;`. -/
def uniqueLoop (temp : List Nat) : Nat → Nat → Nat → Nat
  | 0, _, unique => unique
  | n + 1, i, unique =>
      uniqueLoop temp n (i + 1)
        (if temp.getD i 0 ≠ temp.getD (i - 1) 0 then (unique + 1) % 2 ^ 32 else unique)

/-- The kernel `countUnique(arr, length)`: the caller's buffer after the call
and the returned count.  The fresh `new uint32_t[length]` is taken
zero-filled (every entry is overwritten by the copy loop). -/
def countUnique (arr : List Nat) (length : Nat) : Option (List Nat × Nat) :=
  if length = 0 then some (arr, 0)
  else do
    let temp := copyLoop arr length 0 (List.replicate length 0)
    let temp ← quickSort temp length
    some (arr, uniqueLoop temp (length - 1) 1 1)

/-! ## SIMD aggregate kernels -/

/-- Vector loop of `sumArraySIMD`: `for (; i + 4 <= length; i += 4)`, with `n`
iterations remaining; returns the counter and the lane accumulator. -/
def sumSIMDVecLoop (arr : List Nat) : Nat → Nat → V128 → Nat × V128
  | 0, i, sum_vec => (i, sum_vec)
  | n + 1, i, sum_vec =>
      sumSIMDVecLoop arr n (i + 4) (wasm_i32x4_add sum_vec (wasm_v128_load arr i))

/-- The kernel `sumArraySIMD(arr, length)`: vector loop, then
`for (j = 0; j < 4; j++) sum += lanes[j];`, then the remainder loop (the body
of the last two is that of `sumArray`). -/
def sumArraySIMD (arr : List Nat) (length : Nat) : Nat :=
  let r := sumSIMDVecLoop arr (length / 4) 0 (wasm_i32x4_splat 0)
  let i := r.1
  let sum := sumArrayLoop (lanesOf r.2) 4 0 0
  sumArrayLoop arr (length - i) i sum

/-- Vector loop of `findMaxSIMD`. -/
def maxSIMDVecLoop (arr : List Nat) : Nat → Nat → V128 → Nat × V128
  | 0, i, max_vec => (i, max_vec)
  | n + 1, i, max_vec =>
      maxSIMDVecLoop arr n (i + 4) (wasm_u32x4_max max_vec (wasm_v128_load arr i))

/-- The kernel `findMaxSIMD(arr, length)`. -/
def findMaxSIMD (arr : List Nat) (length : Nat) : Nat :=
  if length = 0 then 0
  else
    let s : Nat × Nat :=
      if length ≥ 4 then
        let r := maxSIMDVecLoop arr ((length - 4) / 4) 4 (wasm_v128_load arr 0)
        let lanes := lanesOf r.2
        (r.1, findMaxLoop lanes 3 1 (lanes.getD 0 0))
      else (0, arr.getD 0 0)
    findMaxLoop arr (length - s.1) s.1 s.2

/-- Vector loop of `findMinSIMD`. -/
def minSIMDVecLoop (arr : List Nat) : Nat → Nat → V128 → Nat × V128
  | 0, i, min_vec => (i, min_vec)
  | n + 1, i, min_vec =>
      minSIMDVecLoop arr n (i + 4) (wasm_u32x4_min min_vec (wasm_v128_load arr i))

/-- The kernel `findMinSIMD(arr, length)`. -/
def findMinSIMD (arr : List Nat) (length : Nat) : Nat :=
  if length = 0 then 0
  else
    let s : Nat × Nat :=
      if length ≥ 4 then
        let r := minSIMDVecLoop arr ((length - 4) / 4) 4 (wasm_v128_load arr 0)
        let lanes := lanesOf r.2
        (r.1, findMinLoop lanes 3 1 (lanes.getD 0 0))
      else (0, arr.getD 0 0)
    findMinLoop arr (length - s.1) s.1 s.2

/-- Vector loop of `multiplyArraySIMD`. -/
def multiplySIMDVecLoop (factor_vec : V128) : Nat → Nat → List Nat → Nat × List Nat
  | 0, i, arr => (i, arr)
  | n + 1, i, arr =>
      multiplySIMDVecLoop factor_vec n (i + 4)
        (wasm_v128_store arr i (wasm_i32x4_mul (wasm_v128_load arr i) factor_vec))

/-- The kernel `multiplyArraySIMD(arr, length, factor)`. -/
def multiplyArraySIMD (arr : List Nat) (length factor : Nat) : List Nat :=
  let r := multiplySIMDVecLoop (wasm_i32x4_splat factor) (length / 4) 0 arr
  multiplyLoop factor (length - r.1) r.1 r.2

/-- Vector loop of `addToArraySIMD`. -/
def addSIMDVecLoop (value_vec : V128) : Nat → Nat → List Nat → Nat × List Nat
  | 0, i, arr => (i, arr)
  | n + 1, i, arr =>
      addSIMDVecLoop value_vec n (i + 4)
        (wasm_v128_store arr i (wasm_i32x4_add (wasm_v128_load arr i) value_vec))

/-- The kernel `addToArraySIMD(arr, length, value)`. -/
def addToArraySIMD (arr : List Nat) (length value : Nat) : List Nat :=
  let r := addSIMDVecLoop (wasm_i32x4_splat value) (length / 4) 0 arr
  addLoop value (length - r.1) r.1 r.2

/-- Lane loop of `countGreaterThanSIMD`: `if (lanes[j] != 0) count++;`. -/
def countLanesLoop (lanes : List Nat) : Nat → Nat → Nat → Nat
  | 0, _, count => count
  | n + 1, j, count =>
      countLanesLoop lanes n (j + 1)
        (if lanes.getD j 0 ≠ 0 then (count + 1) % 2 ^ 32 else count)

/-- Vector loop of `countGreaterThanSIMD`. -/
def countSIMDVecLoop (arr : List Nat) (threshold_vec : V128) : Nat → Nat → Nat → Nat × Nat
  | 0, i, count => (i, count)
  | n + 1, i, count =>
      let data := wasm_v128_load arr i
      let cmp := wasm_u32x4_gt data threshold_vec
      countSIMDVecLoop arr threshold_vec n (i + 4) (countLanesLoop (lanesOf cmp) 4 0 count)

/-- The kernel `countGreaterThanSIMD(arr, length, threshold)`. -/
def countGreaterThanSIMD (arr : List Nat) (length threshold : Nat) : Nat :=
  let r := countSIMDVecLoop arr (wasm_i32x4_splat threshold) (length / 4) 0 0
  countGreaterThanLoop arr threshold (length - r.1) r.1 r.2

/-! ## Floating-point kernels

The kernels are written over a type `R` of values with the operations the
source uses.  Taken in a commutative ring (a field where the source divides)
this is exact arithmetic, without rounding, infinities or NaN; taken in `F32`
below it is `float` arithmetic with its infinities and NaN, still exact on
finite values.  The library functions `std::cos` and `std::sin` are parameters
`cosF`, `sinF`. -/

/-- A `float` value: a finite number (held exactly; rounding and the sign of
zero are not modelled), one of the two infinities, or NaN. -/
inductive F32 where
  | fin (q : ℚ)
  | posInf
  | negInf
  | nan
deriving DecidableEq

/-- The product of two `float` values (IEEE 754): NaN if an operand is NaN or
the product is zero times infinity, else an infinity with the product of the
signs if an operand is infinite, else the product. -/
def f32Mul : F32 → F32 → F32
  | F32.nan, _ => F32.nan
  | _, F32.nan => F32.nan
  | F32.fin a, F32.fin b => F32.fin (a * b)
  | F32.fin a, F32.posInf => if a = 0 then F32.nan else if 0 < a then F32.posInf else F32.negInf
  | F32.fin a, F32.negInf => if a = 0 then F32.nan else if 0 < a then F32.negInf else F32.posInf
  | F32.posInf, F32.fin b => if b = 0 then F32.nan else if 0 < b then F32.posInf else F32.negInf
  | F32.negInf, F32.fin b => if b = 0 then F32.nan else if 0 < b then F32.negInf else F32.posInf
  | F32.posInf, F32.posInf => F32.posInf
  | F32.posInf, F32.negInf => F32.negInf
  | F32.negInf, F32.posInf => F32.negInf
  | F32.negInf, F32.negInf => F32.posInf

/-- The sum of two `float` values (IEEE 754): NaN if an operand is NaN or the
operands are opposite infinities, else the infinity if an operand is
infinite, else the sum. -/
def f32Add : F32 → F32 → F32
  | F32.nan, _ => F32.nan
  | _, F32.nan => F32.nan
  | F32.fin a, F32.fin b => F32.fin (a + b)
  | F32.fin _, F32.posInf => F32.posInf
  | F32.fin _, F32.negInf => F32.negInf
  | F32.posInf, F32.fin _ => F32.posInf
  | F32.negInf, F32.fin _ => F32.negInf
  | F32.posInf, F32.posInf => F32.posInf
  | F32.negInf, F32.negInf => F32.negInf
  | F32.posInf, F32.negInf => F32.nan
  | F32.negInf, F32.posInf => F32.nan

instance : Zero F32 := ⟨F32.fin 0⟩

instance : One F32 := ⟨F32.fin 1⟩

instance : Add F32 := ⟨f32Add⟩

instance : Mul F32 := ⟨f32Mul⟩

/-- The `float` value is finite: neither an infinity nor NaN. -/
def isFiniteF32 : F32 → Prop
  | F32.fin _ => True
  | _ => False

instance (v : F32) : Decidable (isFiniteF32 v) := by
  cases v <;> unfold isFiniteF32 <;> infer_instance


/-- The kernel `calculateAverage(arr, length)`. -/
def calculateAverage {R : Type} [Field R] (arr : List Nat) (length : Nat) : R :=
  if length = 0 then 0
  else
    let sum := sumArray arr length
    (sum : R) / (length : R)

/-- Loop of `calculateVariance`: `diff = arr[i] - mean; variance += diff * diff;`. -/
def varianceLoop {R : Type} [Field R] (arr : List Nat) (mean : R) : Nat → Nat → R → R
  | 0, _, variance => variance
  | n + 1, i, variance =>
      let diff := (arr.getD i 0 : R) - mean
      varianceLoop arr mean n (i + 1) (variance + diff * diff)

/-- The kernel `calculateVariance(arr, length)`. -/
def calculateVariance {R : Type} [Field R] (arr : List Nat) (length : Nat) : R :=
  if length = 0 then 0
  else
    let mean : R := calculateAverage arr length
    varianceLoop arr mean length 0 0 / (length : R)

/-- Body of the loop of `transformVectors` for point `i` (also the body of the
remainder loop of `transformVectorsSIMD`). -/
def transformPoint {R : Type} [Zero R] [Add R] [Mul R] (matrix vectors : List R) (i : Nat) :
    List R :=
  let x := vectors.getD (i * 3 + 0) 0
  let y := vectors.getD (i * 3 + 1) 0
  let z := vectors.getD (i * 3 + 2) 0
  let vectors := vectors.set (i * 3 + 0)
    (matrix.getD 0 0 * x + matrix.getD 4 0 * y + matrix.getD 8 0 * z + matrix.getD 12 0)
  let vectors := vectors.set (i * 3 + 1)
    (matrix.getD 1 0 * x + matrix.getD 5 0 * y + matrix.getD 9 0 * z + matrix.getD 13 0)
  vectors.set (i * 3 + 2)
    (matrix.getD 2 0 * x + matrix.getD 6 0 * y + matrix.getD 10 0 * z + matrix.getD 14 0)

/-- Loop `for (; i < count; i++)` over points, `n` iterations remaining. -/
def transformLoop {R : Type} [Zero R] [Add R] [Mul R] (matrix : List R) :
    Nat → Nat → List R → List R
  | 0, _, vectors => vectors
  | n + 1, i, vectors => transformLoop matrix n (i + 1) (transformPoint matrix vectors i)

/-- The kernel `transformVectors(vectors, matrix, count)`; the result is the
point buffer after the call. -/
def transformVectors {R : Type} [Zero R] [Add R] [Mul R] (vectors matrix : List R)
    (count : Nat) : List R :=
  transformLoop matrix count 0 vectors

/-- A `v128_t` seen as four `float` lanes. -/
structure F32x4 (R : Type) where
  l0 : R
  l1 : R
  l2 : R
  l3 : R

/-- The intrinsic `wasm_f32x4_splat`. -/
def wasm_f32x4_splat {R : Type} (x : R) : F32x4 R := ⟨x, x, x, x⟩

/-- The intrinsic `wasm_f32x4_add`: lane-wise sum. -/
def wasm_f32x4_add {R : Type} [CommRing R] (a b : F32x4 R) : F32x4 R :=
  ⟨a.l0 + b.l0, a.l1 + b.l1, a.l2 + b.l2, a.l3 + b.l3⟩

/-- The intrinsic `wasm_f32x4_mul`: lane-wise product. -/
def wasm_f32x4_mul {R : Type} [CommRing R] (a b : F32x4 R) : F32x4 R :=
  ⟨a.l0 * b.l0, a.l1 * b.l1, a.l2 * b.l2, a.l3 * b.l3⟩

/-- The twelve registers `m00 .. m23` that `transformVectorsSIMD` fills before
its loop. -/
structure MatrixRegs (R : Type) where
  m00 : F32x4 R
  m10 : F32x4 R
  m20 : F32x4 R
  m01 : F32x4 R
  m11 : F32x4 R
  m21 : F32x4 R
  m02 : F32x4 R
  m12 : F32x4 R
  m22 : F32x4 R
  m03 : F32x4 R
  m13 : F32x4 R
  m23 : F32x4 R

/-- The splats of the matrix entries at the head of `transformVectorsSIMD`. -/
def splatMatrix {R : Type} [CommRing R] (matrix : List R) : MatrixRegs R where
  m00 := wasm_f32x4_splat (matrix.getD 0 0)
  m10 := wasm_f32x4_splat (matrix.getD 1 0)
  m20 := wasm_f32x4_splat (matrix.getD 2 0)
  m01 := wasm_f32x4_splat (matrix.getD 4 0)
  m11 := wasm_f32x4_splat (matrix.getD 5 0)
  m21 := wasm_f32x4_splat (matrix.getD 6 0)
  m02 := wasm_f32x4_splat (matrix.getD 8 0)
  m12 := wasm_f32x4_splat (matrix.getD 9 0)
  m22 := wasm_f32x4_splat (matrix.getD 10 0)
  m03 := wasm_f32x4_splat (matrix.getD 12 0)
  m13 := wasm_f32x4_splat (matrix.getD 13 0)
  m23 := wasm_f32x4_splat (matrix.getD 14 0)

/-- Body of the vector loop of `transformVectorsSIMD` for the four points
`i .. i + 3`: gather, three multiply-add trees, scatter. -/
def transformBlock {R : Type} [CommRing R] (m : MatrixRegs R) (vectors : List R) (i : Nat) :
    List R :=
  let x : F32x4 R := ⟨vectors.getD (i * 3 + 0) 0, vectors.getD ((i + 1) * 3 + 0) 0,
    vectors.getD ((i + 2) * 3 + 0) 0, vectors.getD ((i + 3) * 3 + 0) 0⟩
  let y : F32x4 R := ⟨vectors.getD (i * 3 + 1) 0, vectors.getD ((i + 1) * 3 + 1) 0,
    vectors.getD ((i + 2) * 3 + 1) 0, vectors.getD ((i + 3) * 3 + 1) 0⟩
  let z : F32x4 R := ⟨vectors.getD (i * 3 + 2) 0, vectors.getD ((i + 1) * 3 + 2) 0,
    vectors.getD ((i + 2) * 3 + 2) 0, vectors.getD ((i + 3) * 3 + 2) 0⟩
  let nx := wasm_f32x4_add
    (wasm_f32x4_add (wasm_f32x4_mul x m.m00) (wasm_f32x4_mul y m.m01))
    (wasm_f32x4_add (wasm_f32x4_mul z m.m02) m.m03)
  let ny := wasm_f32x4_add
    (wasm_f32x4_add (wasm_f32x4_mul x m.m10) (wasm_f32x4_mul y m.m11))
    (wasm_f32x4_add (wasm_f32x4_mul z m.m12) m.m13)
  let nz := wasm_f32x4_add
    (wasm_f32x4_add (wasm_f32x4_mul x m.m20) (wasm_f32x4_mul y m.m21))
    (wasm_f32x4_add (wasm_f32x4_mul z m.m22) m.m23)
  let vectors := vectors.set (i * 3 + 0) nx.l0
  let vectors := vectors.set (i * 3 + 1) ny.l0
  let vectors := vectors.set (i * 3 + 2) nz.l0
  let vectors := vectors.set ((i + 1) * 3 + 0) nx.l1
  let vectors := vectors.set ((i + 1) * 3 + 1) ny.l1
  let vectors := vectors.set ((i + 1) * 3 + 2) nz.l1
  let vectors := vectors.set ((i + 2) * 3 + 0) nx.l2
  let vectors := vectors.set ((i + 2) * 3 + 1) ny.l2
  let vectors := vectors.set ((i + 2) * 3 + 2) nz.l2
  let vectors := vectors.set ((i + 3) * 3 + 0) nx.l3
  let vectors := vectors.set ((i + 3) * 3 + 1) ny.l3
  vectors.set ((i + 3) * 3 + 2) nz.l3

/-- Vector loop of `transformVectorsSIMD`: `for (; i + 4 <= count; i += 4)`. -/
def transformSIMDVecLoop {R : Type} [CommRing R] (m : MatrixRegs R) :
    Nat → Nat → List R → Nat × List R
  | 0, i, vectors => (i, vectors)
  | n + 1, i, vectors => transformSIMDVecLoop m n (i + 4) (transformBlock m vectors i)

/-- The kernel `transformVectorsSIMD(vectors, matrix, count)`. -/
def transformVectorsSIMD {R : Type} [CommRing R] (vectors matrix : List R) (count : Nat) :
    List R :=
  let m := splatMatrix matrix
  let r := transformSIMDVecLoop m (count / 4) 0 vectors
  transformLoop matrix (count - r.1) r.1 r.2

/-- The angle conversion of `createTransformMatrix`:
`angle_deg * 3.14159265359f / 180.0f`.  The `float` literal `3.14159265359f`
is the value `13176795 / 2 ^ 22` (the `float` nearest to the decimal), and
`180.0f` is `180`. -/
def angleRad {R : Type} [Field R] (angle_deg : R) : R :=
  angle_deg * (13176795 / 4194304) / 180

/-- The kernel `createTransformMatrix(matrix, scale_x, .., trans_z)`; the
result is the matrix buffer after the call. -/
def createTransformMatrix {R : Type} [Field R] (cosF sinF : R → R) (matrix : List R)
    (scale_x scale_y scale_z angle_deg trans_x trans_y trans_z : R) : List R :=
  let angle_rad := angleRad angle_deg
  let cos_a := cosF angle_rad
  let sin_a := sinF angle_rad
  let matrix := matrix.set 0 (scale_x * cos_a)
  let matrix := matrix.set 1 (scale_x * sin_a)
  let matrix := matrix.set 2 0
  let matrix := matrix.set 3 0
  let matrix := matrix.set 4 (scale_y * -sin_a)
  let matrix := matrix.set 5 (scale_y * cos_a)
  let matrix := matrix.set 6 0
  let matrix := matrix.set 7 0
  let matrix := matrix.set 8 0
  let matrix := matrix.set 9 0
  let matrix := matrix.set 10 scale_z
  let matrix := matrix.set 11 0
  let matrix := matrix.set 12 trans_x
  let matrix := matrix.set 13 trans_y
  let matrix := matrix.set 14 trans_z
  matrix.set 15 1

/-! ## Specification predicates and proof-level definitions -/

/-- Horizontal maximum of the four lanes. -/
def hmax (v : V128) : Nat := max (max (max v.l0 v.l1) v.l2) v.l3

/-- Horizontal minimum of the four lanes. -/
def hmin (v : V128) : Nat := min (min (min v.l0 v.l1) v.l2) v.l3

/-- Index form of "sorted ascending". -/
def SortedIdx (arr : List Nat) : Prop :=
  ∀ i j : Nat, i ≤ j → j < arr.length → arr.getD i 0 ≤ arr.getD j 0

/-- The buffer `a'` is `a` with the positions `lo .. hi` rearranged. -/
def Shuffle (lo hi : Int) (a a' : List Nat) : Prop :=
  a'.length = a.length ∧ a'.Perm a ∧
    (∀ k : Nat, ((k : Int) < lo ∨ hi < (k : Int)) → a'.getD k 0 = a.getD k 0) ∧
    (∀ k : Nat, lo ≤ (k : Int) → (k : Int) ≤ hi →
      ∃ k' : Nat, lo ≤ (k' : Int) ∧ (k' : Int) ≤ hi ∧ a'.getD k 0 = a.getD k' 0)

/-- Total number of buffer positions covered by the pending ranges. -/
def rangeSum : List (Int × Int) → Nat
  | [] => 0
  | r :: rs => (r.2 - r.1 + 1).toNat + rangeSum rs

/-- The array `stack` with top index `top` holds the ranges `rs`, the first of
`rs` on top, each as `low` below `high`. -/
def StackRep (stack : List Int) : List (Int × Int) → Int → Prop
  | [], top => top = -1
  | r :: rs, top =>
      1 ≤ top ∧ top.toNat < stack.length ∧ stack.getD top.toNat 0 = r.2 ∧
        stack.getD (top - 1).toNat 0 = r.1 ∧ StackRep stack rs (top - 2)

/-- Two index ranges have no position in common. -/
def RangeDisjoint (r s : Int × Int) : Prop := r.2 < s.1 ∨ s.2 < r.1

/-- Loop invariant of `quickSort` on input `B`: `arr` is a rearrangement of
`B`, the pending ranges `rs` are disjoint ranges of at least two positions,
and any two positions not inside one pending range are already in order. -/
structure QSInv (B arr : List Nat) (rs : List (Int × Int)) : Prop where
  len : arr.length = B.length
  perm : arr.Perm B
  bounds : ∀ r ∈ rs, 0 ≤ r.1 ∧ r.1 < r.2 ∧ r.2 < (B.length : Int)
  disj : rs.Pairwise RangeDisjoint
  ord : ∀ p q : Nat, p < q → q < B.length →
    arr.getD p 0 ≤ arr.getD q 0 ∨ ∃ r ∈ rs, r.1 ≤ (p : Int) ∧ (q : Int) ≤ r.2
  size : rangeSum rs ≤ B.length

/-- The value the transform puts at buffer index `k` (coordinate `k % 3` of
point `k / 3`), written with the coordinates of `vectors`:
`M[r] * x + M[4 + r] * y + M[8 + r] * z + M[12 + r]`. -/
def transformedCoord {R : Type} [CommRing R] (matrix vectors : List R) (k : Nat) : R :=
  matrix.getD (k % 3) 0 * vectors.getD (k / 3 * 3 + 0) 0 +
    matrix.getD (4 + k % 3) 0 * vectors.getD (k / 3 * 3 + 1) 0 +
    matrix.getD (8 + k % 3) 0 * vectors.getD (k / 3 * 3 + 2) 0 +
    matrix.getD (12 + k % 3) 0

/-- The identity matrix as a 16-entry buffer: entries 0, 5, 10, 15 are `1`. -/
def identityMatrix {R : Type} [Zero R] [One R] : List R :=
  [1, 0, 0, 0, 0, 1, 0, 0, 0, 0, 1, 0, 0, 0, 0, 1]

/-- The 4x4 matrix stored column-major in a buffer: row `r`, column `c` is
entry `4 * c + r`. -/
def matrixOf {R : Type} [CommRing R] (matrix : List R) : Matrix (Fin 4) (Fin 4) R :=
  Matrix.of fun r c => matrix.getD (4 * c.val + r.val) 0

/-- The scale matrix `diag(sx, sy, sz, 1)` (given column by column). -/
def scaleMatrix {R : Type} [CommRing R] (sx sy sz : R) : Matrix (Fin 4) (Fin 4) R :=
  matrixOf [sx, 0, 0, 0, 0, sy, 0, 0, 0, 0, sz, 0, 0, 0, 0, 1]

/-- The rotation about the Z axis with cosine `c` and sine `s`, rows
`(c, -s, 0, 0)`, `(s, c, 0, 0)`, `(0, 0, 1, 0)`, `(0, 0, 0, 1)` (given column
by column). -/
def rotateZMatrix {R : Type} [CommRing R] (c s : R) : Matrix (Fin 4) (Fin 4) R :=
  matrixOf [c, s, 0, 0, -s, c, 0, 0, 0, 0, 1, 0, 0, 0, 0, 1]

/-- The translation by `(tx, ty, tz)`: the identity with last column
`(tx, ty, tz, 1)` (given column by column). -/
def translateMatrix {R : Type} [CommRing R] (tx ty tz : R) : Matrix (Fin 4) (Fin 4) R :=
  matrixOf [1, 0, 0, 0, 0, 1, 0, 0, 0, 0, 1, 0, tx, ty, tz, 1]

/-- Scaling of a point. -/
def scalePoint {R : Type} [CommRing R] (sx sy sz : R) (p : R × R × R) : R × R × R :=
  (sx * p.1, sy * p.2.1, sz * p.2.2)

/-- Rotation of a point about the Z axis with cosine `c` and sine `s`. -/
def rotateZPoint {R : Type} [CommRing R] (c s : R) (p : R × R × R) : R × R × R :=
  (c * p.1 - s * p.2.1, s * p.1 + c * p.2.1, p.2.2)

/-- Translation of a point. -/
def translatePoint {R : Type} [CommRing R] (tx ty tz : R) (p : R × R × R) : R × R × R :=
  (p.1 + tx, p.2.1 + ty, p.2.2 + tz)

/-- The ranges pushed after a partition of `lo .. hi` at `pi`: the right part
on top of the left part, each only when it has at least two positions. -/
def pushedRanges (lo hi pi : Int) : List (Int × Int) :=
  (if pi + 1 < hi then [(pi + 1, hi)] else []) ++ (if pi - 1 > lo then [(lo, pi - 1)] else [])

/-- The exact sum `arr[i] + arr[i + 1] + .. + arr[i + n - 1]`. -/
def idxSum (arr : List Nat) : Nat → Nat → Nat
  | 0, _ => 0
  | n + 1, i => arr.getD i 0 + idxSum arr n (i + 1)

/-- The exact sum of lane `j` over `n` vector steps from index `i`:
`arr[i + j] + arr[i + 4 + j] + .. + arr[i + 4 (n - 1) + j]`. -/
def laneSumFrom (arr : List Nat) (j : Nat) : Nat → Nat → Nat
  | 0, _ => 0
  | n + 1, i => arr.getD (i + j) 0 + laneSumFrom arr j n (i + 4)

/-- The exact partial sum of lane `j` of `sumArraySIMD`: the sum of
`arr[j], arr[j + 4], arr[j + 8], ..` over the vectorised prefix (the first
`4 * (length / 4)` elements). -/
def laneSum (arr : List Nat) (length j : Nat) : Nat :=
  laneSumFrom arr j (length / 4) 0

/-- Number of adjacent positions of the list holding different values. -/
def changes : List Nat → Nat
  | [] => 0
  | [_] => 0
  | y :: z :: t => (if z ≠ y then 1 else 0) + changes (z :: t)

/-! # Theorems -/

/-! ## Auxiliary facts on list access -/

theorem getD_set_ne {α : Type} (l : List α) (i j : Nat) (v d : α) (h : i ≠ j) :
    (l.set i v).getD j d = l.getD j d := by
  simp [List.getD_eq_getElem?_getD, List.getElem?_set, h]

theorem getD_set_self {α : Type} (l : List α) (i : Nat) (v d : α) (h : i < l.length) :
    (l.set i v).getD i d = v := by
  simp [List.getD_eq_getElem?_getD, List.getElem?_set, h]

theorem getD_append_length (pre rest : List Nat) (x : Nat) :
    (pre ++ x :: rest).getD pre.length 0 = x := by
  rw [List.getD_eq_getElem?_getD, List.getElem?_append_right (Nat.le_refl _)]
  simp

/-! ## Sum -/

theorem sumArrayLoop_append (rest : List Nat) :
    ∀ (pre : List Nat) (sum : Nat), sum < 2 ^ 64 →
      sumArrayLoop (pre ++ rest) rest.length pre.length sum = (sum + rest.sum) % 2 ^ 64 := by
  induction rest with
  | nil =>
    intro pre sum h
    simp only [List.length_nil, sumArrayLoop, List.sum_nil, Nat.add_zero]
    omega
  | cons x xs ih =>
    intro pre sum _
    have h := ih (pre ++ [x]) ((sum + x) % 2 ^ 64) (Nat.mod_lt _ (by norm_num))
    simp only [List.append_assoc, List.singleton_append, List.length_append,
      List.length_singleton] at h
    simp only [List.length_cons, sumArrayLoop, getD_append_length, h, List.sum_cons]
    omega

theorem sum_le_of_isU32Buf (l : List Nat) (h : IsU32Buf l) :
    l.sum ≤ l.length * (2 ^ 32 - 1) := by
  induction l with
  | nil => simp
  | cons x xs ih =>
    have hx : x < 2 ^ 32 := h x (List.mem_cons_self _ _)
    have := ih (fun y hy => h y (List.mem_cons_of_mem _ hy))
    simp only [List.sum_cons, List.length_cons]
    omega

theorem sumArray_eq_mod (B : List Nat) : sumArray B B.length = B.sum % 2 ^ 64 := by
  have := sumArrayLoop_append B [] 0 (by norm_num)
  simpa [sumArray] using this

/-- C5: on a buffer of `uint32_t` values whose length fits in `uint32_t`,
`sumArray` returns the exact sum of the elements, and that sum is below
`2 ^ 64` (the 64-bit accumulator never wraps); the empty buffer gives `0`. -/
theorem sumArray_exact (B : List Nat) (hB : IsU32Buf B) (hlen : B.length < 2 ^ 32) :
    sumArray B B.length = B.sum ∧ B.sum < 2 ^ 64 ∧ (B = [] → sumArray B B.length = 0) := by
  have h1 := sum_le_of_isU32Buf B hB
  have h2 : B.length * (2 ^ 32 - 1) < 2 ^ 64 := by
    have : B.length * (2 ^ 32 - 1) ≤ (2 ^ 32 - 1) * (2 ^ 32 - 1) :=
      Nat.mul_le_mul_right _ (by omega)
    omega
  have h3 : B.sum < 2 ^ 64 := lt_of_le_of_lt h1 h2
  exact ⟨by rw [sumArray_eq_mod, Nat.mod_eq_of_lt h3], h3, fun e => by rw [e]; rfl⟩

theorem sumArray_exact_witness :
    sumArray [1, 2, 3, 4] [1, 2, 3, 4].length = [1, 2, 3, 4].sum ∧
      [1, 2, 3, 4].sum < 2 ^ 64 ∧
      (([1, 2, 3, 4] : List Nat) = [] → sumArray [1, 2, 3, 4] [1, 2, 3, 4].length = 0) :=
  sumArray_exact [1, 2, 3, 4] (by decide) (by decide)

/-- C2: on the `uint32_t` buffer `[2^32 - 1, 0, 0, 0, 1, 0, 0, 0]` lane 0 of
the vector accumulator wraps to `0`, so `sumArraySIMD` returns `0` while
`sumArray` returns `2 ^ 32`. -/
theorem sumArraySIMD_lane_wrap :
    IsU32Buf [4294967295, 0, 0, 0, 1, 0, 0, 0] ∧
      sumArraySIMD [4294967295, 0, 0, 0, 1, 0, 0, 0] 8 = 0 ∧
      sumArray [4294967295, 0, 0, 0, 1, 0, 0, 0] 8 = 4294967296 := by
  decide


/-! ## Elementwise mutators: scalar loops -/

theorem set_append_length (pre rest : List Nat) (x v : Nat) :
    (pre ++ x :: rest).set pre.length v = pre ++ v :: rest := by
  induction pre with
  | nil => rfl
  | cons p ps ih => simp [ih]

theorem multiplyLoop_append (factor : Nat) (rest : List Nat) :
    ∀ pre : List Nat,
      multiplyLoop factor rest.length pre.length (pre ++ rest) =
        pre ++ rest.map (fun x => (x * factor) % 2 ^ 32) := by
  induction rest with
  | nil => intro pre; simp [multiplyLoop]
  | cons x xs ih =>
    intro pre
    have h := ih (pre ++ [(x * factor) % 2 ^ 32])
    simp only [List.append_assoc, List.singleton_append, List.length_append,
      List.length_singleton] at h
    simp only [List.length_cons, multiplyLoop, getD_append_length, set_append_length, h,
      List.map_cons]

theorem addLoop_append (value : Nat) (rest : List Nat) :
    ∀ pre : List Nat,
      addLoop value rest.length pre.length (pre ++ rest) =
        pre ++ rest.map (fun x => (x + value) % 2 ^ 32) := by
  induction rest with
  | nil => intro pre; simp [addLoop]
  | cons x xs ih =>
    intro pre
    have h := ih (pre ++ [(x + value) % 2 ^ 32])
    simp only [List.append_assoc, List.singleton_append, List.length_append,
      List.length_singleton] at h
    simp only [List.length_cons, addLoop, getD_append_length, set_append_length, h,
      List.map_cons]

theorem multiplyArray_eq_map (B : List Nat) (k : Nat) :
    multiplyArray B B.length k = B.map (fun x => (x * k) % 2 ^ 32) := by
  simpa [multiplyArray] using multiplyLoop_append k B []

theorem addToArray_eq_map (B : List Nat) (k : Nat) :
    addToArray B B.length k = B.map (fun x => (x + k) % 2 ^ 32) := by
  simpa [addToArray] using addLoop_append k B []

theorem getD_map_of_lt (f : Nat → Nat) (B : List Nat) (i : Nat) (h : i < B.length) :
    (B.map f).getD i 0 = f (B.getD i 0) := by
  simp [List.getD_eq_getElem?_getD, List.getElem?_map, List.getElem?_eq_getElem h]

/-! ## Elementwise mutators: the vector loop is four scalar steps -/

theorem multiplyLoop_add (factor : Nat) (a b : Nat) :
    ∀ (i : Nat) (arr : List Nat),
      multiplyLoop factor (a + b) i arr =
        multiplyLoop factor b (i + a) (multiplyLoop factor a i arr) := by
  induction a with
  | zero => intro i arr; simp [multiplyLoop]
  | succ a ih =>
    intro i arr
    have e : a + 1 + b = (a + b) + 1 := by omega
    rw [e, multiplyLoop, ih, multiplyLoop]
    congr 1
    omega

theorem addLoop_add (value : Nat) (a b : Nat) :
    ∀ (i : Nat) (arr : List Nat),
      addLoop value (a + b) i arr = addLoop value b (i + a) (addLoop value a i arr) := by
  induction a with
  | zero => intro i arr; simp [addLoop]
  | succ a ih =>
    intro i arr
    have e : a + 1 + b = (a + b) + 1 := by omega
    rw [e, addLoop, ih, addLoop]
    congr 1
    omega

theorem multiply_vec_step (factor i : Nat) (arr : List Nat) :
    wasm_v128_store arr i (wasm_i32x4_mul (wasm_v128_load arr i) (wasm_i32x4_splat factor)) =
      multiplyLoop factor 4 i arr := by
  simp [multiplyLoop, wasm_v128_store, wasm_i32x4_mul, wasm_v128_load, wasm_i32x4_splat,
    getD_set_ne, Nat.add_assoc]

theorem add_vec_step (value i : Nat) (arr : List Nat) :
    wasm_v128_store arr i (wasm_i32x4_add (wasm_v128_load arr i) (wasm_i32x4_splat value)) =
      addLoop value 4 i arr := by
  simp [addLoop, wasm_v128_store, wasm_i32x4_add, wasm_v128_load, wasm_i32x4_splat,
    getD_set_ne, Nat.add_assoc]

theorem multiplySIMDVecLoop_eq (factor n : Nat) :
    ∀ (i : Nat) (arr : List Nat),
      multiplySIMDVecLoop (wasm_i32x4_splat factor) n i arr =
        (i + 4 * n, multiplyLoop factor (4 * n) i arr) := by
  induction n with
  | zero => intro i arr; simp [multiplySIMDVecLoop, multiplyLoop]
  | succ n ih =>
    intro i arr
    have e : 4 * (n + 1) = 4 + 4 * n := by omega
    rw [multiplySIMDVecLoop, ih, multiply_vec_step, e, multiplyLoop_add]
    congr 1
    omega

theorem addSIMDVecLoop_eq (value n : Nat) :
    ∀ (i : Nat) (arr : List Nat),
      addSIMDVecLoop (wasm_i32x4_splat value) n i arr =
        (i + 4 * n, addLoop value (4 * n) i arr) := by
  induction n with
  | zero => intro i arr; simp [addSIMDVecLoop, addLoop]
  | succ n ih =>
    intro i arr
    have e : 4 * (n + 1) = 4 + 4 * n := by omega
    rw [addSIMDVecLoop, ih, add_vec_step, e, addLoop_add]
    congr 1
    omega

theorem multiplyArraySIMD_eq (arr : List Nat) (length factor : Nat) :
    multiplyArraySIMD arr length factor = multiplyArray arr length factor := by
  have e : length = 4 * (length / 4) + (length - 4 * (length / 4)) := by omega
  simp only [multiplyArraySIMD, multiplyArray, multiplySIMDVecLoop_eq, Nat.zero_add]
  conv_rhs => rw [e, multiplyLoop_add, Nat.zero_add]

theorem addToArraySIMD_eq (arr : List Nat) (length value : Nat) :
    addToArraySIMD arr length value = addToArray arr length value := by
  have e : length = 4 * (length / 4) + (length - 4 * (length / 4)) := by omega
  simp only [addToArraySIMD, addToArray, addSIMDVecLoop_eq, Nat.zero_add]
  conv_rhs => rw [e, addLoop_add, Nat.zero_add]

/-- C8: for every buffer and scalar, `multiplyArraySIMD` leaves the same
buffer as `multiplyArray` and `addToArraySIMD` the same buffer as
`addToArray` (products and sums taken modulo `2 ^ 32`, any length). -/
theorem simd_mutators_agree (B : List Nat) (k : Nat) :
    multiplyArraySIMD B B.length k = multiplyArray B B.length k ∧
      addToArraySIMD B B.length k = addToArray B B.length k :=
  ⟨multiplyArraySIMD_eq B B.length k, addToArraySIMD_eq B B.length k⟩

/-- C9: `multiplyArray` keeps the length and replaces element `i` by
`(B[i] * k) mod 2 ^ 32`; `addToArray` keeps the length and replaces element
`i` by `(B[i] + k) mod 2 ^ 32`. -/
theorem scalar_mutators_pointwise (B : List Nat) (k : Nat) :
    ((multiplyArray B B.length k).length = B.length ∧
        ∀ i, i < B.length →
          (multiplyArray B B.length k).getD i 0 = (B.getD i 0 * k) % 2 ^ 32) ∧
      ((addToArray B B.length k).length = B.length ∧
        ∀ i, i < B.length →
          (addToArray B B.length k).getD i 0 = (B.getD i 0 + k) % 2 ^ 32) := by
  rw [multiplyArray_eq_map, addToArray_eq_map]
  refine ⟨⟨List.length_map _ _, fun i hi => ?_⟩, ⟨List.length_map _ _, fun i hi => ?_⟩⟩
  · exact getD_map_of_lt _ B i hi
  · exact getD_map_of_lt _ B i hi


/-! ## Threshold count -/

theorem countGreaterThanLoop_add (arr : List Nat) (t a b : Nat) :
    ∀ (i count : Nat),
      countGreaterThanLoop arr t (a + b) i count =
        countGreaterThanLoop arr t b (i + a) (countGreaterThanLoop arr t a i count) := by
  induction a with
  | zero => intro i count; simp [countGreaterThanLoop]
  | succ a ih =>
    intro i count
    have e : a + 1 + b = (a + b) + 1 := by omega
    rw [e, countGreaterThanLoop, ih, countGreaterThanLoop]
    congr 1
    omega

theorem count_vec_step (arr : List Nat) (t i count : Nat) :
    countLanesLoop (lanesOf (wasm_u32x4_gt (wasm_v128_load arr i) (wasm_i32x4_splat t))) 4 0
        count = countGreaterThanLoop arr t 4 i count := by
  simp only [countLanesLoop, countGreaterThanLoop, lanesOf, wasm_u32x4_gt, wasm_v128_load,
    wasm_i32x4_splat, List.getD_cons_zero, List.getD_cons_succ, Nat.add_assoc]
  have key : ∀ x : Nat, ((if t < x then 2 ^ 32 - 1 else 0) ≠ 0) ↔ x > t := by
    intro x; by_cases h : t < x <;> simp [h]
  simp only [key]

theorem countSIMDVecLoop_eq (arr : List Nat) (t n : Nat) :
    ∀ (i count : Nat),
      countSIMDVecLoop arr (wasm_i32x4_splat t) n i count =
        (i + 4 * n, countGreaterThanLoop arr t (4 * n) i count) := by
  induction n with
  | zero => intro i count; simp [countSIMDVecLoop, countGreaterThanLoop]
  | succ n ih =>
    intro i count
    have e : 4 * (n + 1) = 4 + 4 * n := by omega
    rw [countSIMDVecLoop, ih, count_vec_step, e, countGreaterThanLoop_add]
    congr 1
    omega

theorem countGreaterThanSIMD_eq (arr : List Nat) (length t : Nat) :
    countGreaterThanSIMD arr length t = countGreaterThan arr length t := by
  have e : length = 4 * (length / 4) + (length - 4 * (length / 4)) := by omega
  simp only [countGreaterThanSIMD, countGreaterThan, countSIMDVecLoop_eq, Nat.zero_add]
  conv_rhs => rw [e, countGreaterThanLoop_add, Nat.zero_add]

theorem countGreaterThanLoop_append (t : Nat) (rest : List Nat) :
    ∀ (pre : List Nat) (count : Nat), count + rest.length < 2 ^ 32 →
      countGreaterThanLoop (pre ++ rest) t rest.length pre.length count =
        count + rest.countP (fun x => decide (t < x)) := by
  induction rest with
  | nil => intro pre count _; simp [countGreaterThanLoop]
  | cons x xs ih =>
    intro pre count hc
    simp only [List.length_cons] at hc
    have h := ih (pre ++ [x])
    simp only [List.append_assoc, List.singleton_append, List.length_append,
      List.length_singleton] at h
    simp only [List.length_cons, countGreaterThanLoop, getD_append_length, List.countP_cons]
    by_cases hx : t < x
    · have hm : (count + 1) % 2 ^ 32 = count + 1 := Nat.mod_eq_of_lt (by omega)
      simp only [gt_iff_lt, hx, if_true, hm, decide_True]
      rw [h (count + 1) (by omega)]
      omega
    · simp only [gt_iff_lt, hx, if_false, decide_False]
      rw [h count (by omega)]
      simp

/-- C7: on a buffer whose length fits in `uint32_t`, `countGreaterThanSIMD`
and `countGreaterThan` return the same count, which is the number of
positions holding a value strictly greater than the threshold. -/
theorem countGreaterThan_agree (B : List Nat) (t : Nat) (hlen : B.length < 2 ^ 32) :
    countGreaterThanSIMD B B.length t = countGreaterThan B B.length t ∧
      countGreaterThan B B.length t = B.countP (fun x => decide (t < x)) := by
  refine ⟨countGreaterThanSIMD_eq B B.length t, ?_⟩
  have := countGreaterThanLoop_append t B [] 0 (by omega)
  simpa [countGreaterThan] using this

theorem countGreaterThan_agree_witness :
    countGreaterThanSIMD [7, 3, 9, 3, 1, 8] [7, 3, 9, 3, 1, 8].length 3 =
        countGreaterThan [7, 3, 9, 3, 1, 8] [7, 3, 9, 3, 1, 8].length 3 ∧
      countGreaterThan [7, 3, 9, 3, 1, 8] [7, 3, 9, 3, 1, 8].length 3 =
        [7, 3, 9, 3, 1, 8].countP (fun x => decide (3 < x)) :=
  countGreaterThan_agree [7, 3, 9, 3, 1, 8] 3 (by decide)

/-! ## Maximum and minimum -/

theorem ite_gt_eq_max (x m : Nat) : (if x > m then x else m) = max m x := by
  simp only [Nat.max_def]; split_ifs <;> omega

theorem ite_lt_eq_min (x m : Nat) : (if x < m then x else m) = min m x := by
  simp only [Nat.min_def]; split_ifs <;> omega

theorem findMaxLoop_add (arr : List Nat) (a b : Nat) :
    ∀ (i m : Nat),
      findMaxLoop arr (a + b) i m = findMaxLoop arr b (i + a) (findMaxLoop arr a i m) := by
  induction a with
  | zero => intro i m; simp [findMaxLoop]
  | succ a ih =>
    intro i m
    have e : a + 1 + b = (a + b) + 1 := by omega
    rw [e, findMaxLoop, ih, findMaxLoop]
    congr 1
    omega

theorem findMinLoop_add (arr : List Nat) (a b : Nat) :
    ∀ (i m : Nat),
      findMinLoop arr (a + b) i m = findMinLoop arr b (i + a) (findMinLoop arr a i m) := by
  induction a with
  | zero => intro i m; simp [findMinLoop]
  | succ a ih =>
    intro i m
    have e : a + 1 + b = (a + b) + 1 := by omega
    rw [e, findMinLoop, ih, findMinLoop]
    congr 1
    omega

theorem findMaxLoop_four (arr : List Nat) (i m : Nat) :
    findMaxLoop arr 4 i m = max m (hmax (wasm_v128_load arr i)) := by
  simp only [findMaxLoop, ite_gt_eq_max, hmax, wasm_v128_load, Nat.add_assoc, Nat.reduceAdd]
  ac_rfl

theorem findMinLoop_four (arr : List Nat) (i m : Nat) :
    findMinLoop arr 4 i m = min m (hmin (wasm_v128_load arr i)) := by
  simp only [findMinLoop, ite_lt_eq_min, hmin, wasm_v128_load, Nat.add_assoc, Nat.reduceAdd]
  ac_rfl

theorem hmax_max (a b : V128) : hmax (wasm_u32x4_max a b) = max (hmax a) (hmax b) := by
  have k : ∀ x y : Nat, (if x < y then y else x) = max x y := by
    intro x y; simp only [Nat.max_def]; split_ifs <;> omega
  simp only [hmax, wasm_u32x4_max, k]
  ac_rfl

theorem hmin_min (a b : V128) : hmin (wasm_u32x4_min a b) = min (hmin a) (hmin b) := by
  have k : ∀ x y : Nat, (if y < x then y else x) = min x y := by
    intro x y; simp only [Nat.min_def]; split_ifs <;> omega
  simp only [hmin, wasm_u32x4_min, k]
  ac_rfl

theorem maxSIMDVecLoop_eq (arr : List Nat) (n : Nat) :
    ∀ (i : Nat) (v : V128),
      (maxSIMDVecLoop arr n i v).1 = i + 4 * n ∧
        hmax (maxSIMDVecLoop arr n i v).2 = findMaxLoop arr (4 * n) i (hmax v) := by
  induction n with
  | zero => intro i v; simp [maxSIMDVecLoop, findMaxLoop]
  | succ n ih =>
    intro i v
    have e : 4 * (n + 1) = 4 + 4 * n := by omega
    rw [maxSIMDVecLoop, e, findMaxLoop_add, findMaxLoop_four, ← hmax_max]
    exact ⟨by rw [(ih _ _).1]; omega, (ih _ _).2⟩

theorem minSIMDVecLoop_eq (arr : List Nat) (n : Nat) :
    ∀ (i : Nat) (v : V128),
      (minSIMDVecLoop arr n i v).1 = i + 4 * n ∧
        hmin (minSIMDVecLoop arr n i v).2 = findMinLoop arr (4 * n) i (hmin v) := by
  induction n with
  | zero => intro i v; simp [minSIMDVecLoop, findMinLoop]
  | succ n ih =>
    intro i v
    have e : 4 * (n + 1) = 4 + 4 * n := by omega
    rw [minSIMDVecLoop, e, findMinLoop_add, findMinLoop_four, ← hmin_min]
    exact ⟨by rw [(ih _ _).1]; omega, (ih _ _).2⟩

theorem lanes_max (v : V128) :
    findMaxLoop (lanesOf v) 3 1 ((lanesOf v).getD 0 0) = hmax v := by
  simp only [findMaxLoop, lanesOf, ite_gt_eq_max, hmax, List.getD_cons_zero,
    List.getD_cons_succ]

theorem lanes_min (v : V128) :
    findMinLoop (lanesOf v) 3 1 ((lanesOf v).getD 0 0) = hmin v := by
  simp only [findMinLoop, lanesOf, ite_lt_eq_min, hmin, List.getD_cons_zero,
    List.getD_cons_succ]

theorem load_zero_max (arr : List Nat) :
    hmax (wasm_v128_load arr 0) = findMaxLoop arr 3 1 (arr.getD 0 0) := by
  simp only [findMaxLoop, ite_gt_eq_max, hmax, wasm_v128_load, Nat.reduceAdd]

theorem load_zero_min (arr : List Nat) :
    hmin (wasm_v128_load arr 0) = findMinLoop arr 3 1 (arr.getD 0 0) := by
  simp only [findMinLoop, ite_lt_eq_min, hmin, wasm_v128_load, Nat.reduceAdd]

theorem findMaxSIMD_eq (arr : List Nat) (length : Nat) :
    findMaxSIMD arr length = findMax arr length := by
  unfold findMaxSIMD findMax
  by_cases h0 : length = 0
  · simp [h0]
  · simp only [h0, if_false]
    by_cases h4 : length ≥ 4
    · obtain ⟨h1, h2⟩ := maxSIMDVecLoop_eq arr ((length - 4) / 4) 4 (wasm_v128_load arr 0)
      simp only [h4, if_true, lanes_max, h1, h2, load_zero_max]
      have e : length - 1 =
          3 + (4 * ((length - 4) / 4) + (length - (4 + 4 * ((length - 4) / 4)))) := by omega
      conv_rhs => rw [e, findMaxLoop_add, findMaxLoop_add]
    · simp only [h4, if_false, Nat.sub_zero]
      obtain ⟨n, rfl⟩ : ∃ n, length = n + 1 := ⟨length - 1, by omega⟩
      simp [findMaxLoop]

theorem findMinSIMD_eq (arr : List Nat) (length : Nat) :
    findMinSIMD arr length = findMin arr length := by
  unfold findMinSIMD findMin
  by_cases h0 : length = 0
  · simp [h0]
  · simp only [h0, if_false]
    by_cases h4 : length ≥ 4
    · obtain ⟨h1, h2⟩ := minSIMDVecLoop_eq arr ((length - 4) / 4) 4 (wasm_v128_load arr 0)
      simp only [h4, if_true, lanes_min, h1, h2, load_zero_min]
      have e : length - 1 =
          3 + (4 * ((length - 4) / 4) + (length - (4 + 4 * ((length - 4) / 4)))) := by omega
      conv_rhs => rw [e, findMinLoop_add, findMinLoop_add]
    · simp only [h4, if_false, Nat.sub_zero]
      obtain ⟨n, rfl⟩ : ∃ n, length = n + 1 := ⟨length - 1, by omega⟩
      simp [findMinLoop]

/-- C6: for every buffer, of any length, `findMaxSIMD` returns the value of
`findMax` and `findMinSIMD` the value of `findMin`. -/
theorem simd_extrema_agree (B : List Nat) :
    findMaxSIMD B B.length = findMax B B.length ∧
      findMinSIMD B B.length = findMin B B.length :=
  ⟨findMaxSIMD_eq B B.length, findMinSIMD_eq B B.length⟩


/-! ## Reverse -/

theorem getD_set (l : List Nat) (i j v : Nat) :
    (l.set i v).getD j 0 = if i = j ∧ i < l.length then v else l.getD j 0 := by
  by_cases h : i = j
  · subst h
    by_cases hi : i < l.length
    · simp [getD_set_self, hi]
    · have : l.set i v = l := by
        apply List.set_eq_of_length_le; omega
      simp [hi, this]
  · simp [getD_set_ne, h]

theorem ext_getD (l₁ l₂ : List Nat) (hl : l₁.length = l₂.length)
    (h : ∀ k, k < l₁.length → l₁.getD k 0 = l₂.getD k 0) : l₁ = l₂ := by
  apply List.ext_getElem hl
  intro n h₁ h₂
  have := h n h₁
  rwa [List.getD_eq_getElem _ _ h₁, List.getD_eq_getElem _ _ h₂] at this

theorem length_swapIdx (arr : List Nat) (i j : Nat) :
    (swapIdx arr i j).length = arr.length := by
  simp [swapIdx]

theorem getD_swapIdx (arr : List Nat) (i j k : Nat) (hi : i < arr.length)
    (hj : j < arr.length) :
    (swapIdx arr i j).getD k 0 =
      if k = j then arr.getD i 0 else if k = i then arr.getD j 0 else arr.getD k 0 := by
  simp only [swapIdx, getD_set, List.length_set]
  split_ifs <;> first | rfl | omega

theorem reverseLoop_spec (length : Nat) (n : Nat) :
    ∀ (i : Nat) (arr : List Nat), arr.length = length → i + n ≤ length / 2 →
      (reverseLoop length n i arr).length = length ∧
        ∀ k, (reverseLoop length n i arr).getD k 0 =
          if (i ≤ k ∧ k < i + n) ∨ (length - (i + n) ≤ k ∧ k < length - i) then
            arr.getD (length - 1 - k) 0
          else arr.getD k 0 := by
  induction n with
  | zero =>
    intro i arr hl _
    refine ⟨hl, fun k => ?_⟩
    have : ¬ ((i ≤ k ∧ k < i + 0) ∨ (length - (i + 0) ≤ k ∧ k < length - i)) := by omega
    rw [reverseLoop, if_neg this]
  | succ n ih =>
    intro i arr hl hin
    have hi : i < arr.length := by omega
    have hj : length - 1 - i < arr.length := by omega
    obtain ⟨h1, h2⟩ := ih (i + 1) (swapIdx arr i (length - 1 - i))
      (by rw [length_swapIdx, hl]) (by omega)
    refine ⟨h1, fun k => ?_⟩
    rw [reverseLoop, h2 k, getD_swapIdx arr i _ _ hi hj, getD_swapIdx arr i _ _ hi hj]
    split_ifs <;> first | rfl | omega | (congr 1; omega)

theorem length_reverseArray (B : List Nat) : (reverseArray B B.length).length = B.length :=
  (reverseLoop_spec B.length (B.length / 2) 0 B rfl (by omega)).1

theorem getD_reverseArray (B : List Nat) (k : Nat) (hk : k < B.length) :
    (reverseArray B B.length).getD k 0 = B.getD (B.length - 1 - k) 0 := by
  rw [reverseArray, (reverseLoop_spec B.length (B.length / 2) 0 B rfl (by omega)).2 k]
  split_ifs with h
  · rfl
  · congr 1; omega

/-- C10: applying `reverseArray` twice gives the buffer back, for every
buffer of any length. -/
theorem reverseArray_involution (B : List Nat) :
    reverseArray (reverseArray B B.length) B.length = B := by
  have hl := length_reverseArray B
  have hl2 := length_reverseArray (reverseArray B B.length)
  rw [hl] at hl2
  apply ext_getD _ _ hl2
  intro k hk
  rw [hl2] at hk
  have h1 := getD_reverseArray (reverseArray B B.length) k (by omega)
  rw [hl] at h1
  rw [h1, getD_reverseArray B _ (by omega)]
  congr 1; omega


/-! ## Checked accesses -/

theorem readAt_of_lt {α : Type} (a : List α) (i : Int) (d : α) (h0 : 0 ≤ i)
    (h1 : i.toNat < a.length) : readAt a i = some (a.getD i.toNat d) := by
  simp [readAt, h0, List.getD_eq_getElem?_getD, List.getElem?_eq_getElem h1]

theorem writeAt_of_lt {α : Type} (a : List α) (i : Int) (v : α) (h0 : 0 ≤ i)
    (h1 : i.toNat < a.length) : writeAt a i v = some (a.set i.toNat v) := by
  simp [writeAt, h0, h1]

theorem toInt32_u32Pred (length : Nat) (h0 : 0 < length) (h : length < 2 ^ 31) :
    toInt32 (u32Pred length) = (length : Int) - 1 := by
  unfold toInt32 u32Pred
  split_ifs <;> omega

theorem toInt32_u32Pred_zero : toInt32 (u32Pred 0) = -1 := by decide

/-! ## Binary search -/

theorem sortedIdx_of_sorted (arr : List Nat) (h : arr.Sorted (· ≤ ·)) : SortedIdx arr := by
  intro i j hij hj
  rcases Nat.eq_or_lt_of_le hij with rfl | hlt
  · exact Nat.le_refl _
  · have hi : i < arr.length := by omega
    rw [List.getD_eq_getElem _ _ hi, List.getD_eq_getElem _ _ hj]
    exact List.pairwise_iff_getElem.mp h i j hi hj hlt

theorem binarySearchLoop_spec (arr : List Nat) (target : Nat) (hs : SortedIdx arr) :
    ∀ (fuel : Nat) (left right : Int), 0 ≤ left → right < arr.length →
      (right - left + 1).toNat < fuel →
      (∀ k : Nat, (k : Int) < left → k < arr.length → arr.getD k 0 < target) →
      (∀ k : Nat, right < (k : Int) → k < arr.length → target < arr.getD k 0) →
      ∃ r : Int, binarySearchLoop arr target fuel left right = some r ∧
        ((r = -1 ∧ ∀ k : Nat, k < arr.length → arr.getD k 0 ≠ target) ∨
          (0 ≤ r ∧ r.toNat < arr.length ∧ arr.getD r.toNat 0 = target)) := by
  intro fuel
  induction fuel with
  | zero => intro left right _ _ hf; omega
  | succ fuel ih =>
    intro left right hl hr hf hlo hhi
    rw [binarySearchLoop]
    by_cases hlr : left ≤ right
    · have hd : (right - left).tdiv 2 = (right - left) / 2 :=
        Int.tdiv_eq_ediv (by omega) (by omega)
      have hm0 : 0 ≤ left + (right - left).tdiv 2 := by rw [hd]; omega
      have hm1 : left ≤ left + (right - left).tdiv 2 := by rw [hd]; omega
      have hm2 : left + (right - left).tdiv 2 ≤ right := by rw [hd]; omega
      generalize left + (right - left).tdiv 2 = mid at hm0 hm1 hm2
      have hml : mid.toNat < arr.length := by omega
      simp only [hlr, if_true, readAt_of_lt arr mid 0 hm0 hml, Option.bind_eq_bind,
        Option.some_bind]
      by_cases he : arr.getD mid.toNat 0 = target
      · exact ⟨mid, by rw [if_pos he], Or.inr ⟨hm0, hml, he⟩⟩
      · by_cases hlt : arr.getD mid.toNat 0 < target
        · simp only [he, hlt, if_true, if_false]
          apply ih (mid + 1) right (by omega) hr (by omega) _ hhi
          intro k hk hkl
          exact lt_of_le_of_lt (hs k mid.toNat (by omega) hml) hlt
        · simp only [he, hlt, if_false]
          apply ih left (mid - 1) hl (by omega) (by omega) hlo
          intro k hk hkl
          exact lt_of_lt_of_le (by omega) (hs mid.toNat k (by omega) hkl)
    · refine ⟨-1, by simp [hlr], Or.inl ⟨rfl, fun k hk => ?_⟩⟩
      by_cases hkl : (k : Int) < left
      · have := hlo k hkl hk
        omega
      · have := hhi k (by omega) hk
        omega

theorem binarySearchLoop_mono (arr : List Nat) (target : Nat) :
    ∀ (fuel : Nat) (left right r : Int),
      binarySearchLoop arr target fuel left right = some r →
      ∀ fuel' : Nat, fuel ≤ fuel' → binarySearchLoop arr target fuel' left right = some r := by
  intro fuel
  induction fuel with
  | zero => intro left right r h; simp [binarySearchLoop] at h
  | succ fuel ih =>
    intro left right r h fuel' hle
    obtain ⟨f, rfl⟩ : ∃ f, fuel' = f + 1 := ⟨fuel' - 1, by omega⟩
    rw [binarySearchLoop] at h ⊢
    by_cases hlr : left ≤ right
    · simp only [hlr, if_true, Option.bind_eq_bind] at h ⊢
      cases hv : readAt arr (left + (right - left).tdiv 2) with
      | none => simp [hv] at h
      | some v =>
        simp only [hv, Option.some_bind] at h ⊢
        by_cases he : v = target
        · simpa [he] using h
        · by_cases hlt : v < target
          · simp only [he, hlt, if_true, if_false] at h ⊢
            exact ih _ _ _ h f (by omega)
          · simp only [he, hlt, if_false] at h ⊢
            exact ih _ _ _ h f (by omega)
    · simpa [hlr] using h

theorem binarySearch_spec (B : List Nat) (t : Nat) (hs : B.Sorted (· ≤ ·))
    (hlen : B.length < 2 ^ 31) :
    ∃ r : Int, (∀ fuel : Nat, B.length < fuel → binarySearchFuel fuel B B.length t = some r) ∧
      ((r = -1 ∧ ∀ k : Nat, k < B.length → B.getD k 0 ≠ t) ∨
        (0 ≤ r ∧ r.toNat < B.length ∧ B.getD r.toNat 0 = t)) := by
  have hr : toInt32 (u32Pred B.length) = (B.length : Int) - 1 := by
    rcases Nat.eq_zero_or_pos B.length with h | h
    · rw [h]; exact toInt32_u32Pred_zero
    · exact toInt32_u32Pred _ h hlen
  obtain ⟨r, h1, h2⟩ :=
    binarySearchLoop_spec B t (sortedIdx_of_sorted B hs) (B.length + 1) 0
      ((B.length : Int) - 1) (le_refl _) (by omega) (by omega) (fun k hk _ => by omega)
      (fun k hk hkl => by omega)
  refine ⟨r, fun fuel hf => ?_, h2⟩
  unfold binarySearchFuel
  rw [hr]
  exact binarySearchLoop_mono B t _ _ _ _ h1 fuel (by omega)

theorem mem_iff_getD (B : List Nat) (t : Nat) :
    t ∈ B ↔ ∃ k : Nat, k < B.length ∧ B.getD k 0 = t := by
  constructor
  · intro h
    obtain ⟨k, hk, e⟩ := List.getElem_of_mem h
    exact ⟨k, hk, by rw [List.getD_eq_getElem _ _ hk]; exact e⟩
  · rintro ⟨k, hk, e⟩
    rw [List.getD_eq_getElem _ _ hk] at e
    exact e ▸ List.getElem_mem hk

/-- C3: on a buffer sorted ascending, of length below `2 ^ 31`,
`binarySearch` terminates (any loop fuel above `length` gives the same
result) and returns an index `i` in range with `B[i] = t` when `t` occurs in
the buffer, and `-1` when it does not. -/
theorem binarySearch_sorted (B : List Nat) (t : Nat) (hs : B.Sorted (· ≤ ·))
    (hlen : B.length < 2 ^ 31) :
    (t ∈ B → ∃ i : Nat, binarySearch B B.length t = some (i : Int) ∧
        (∀ fuel : Nat, B.length < fuel →
          binarySearchFuel fuel B B.length t = some (i : Int)) ∧
        i < B.length ∧ B.getD i 0 = t) ∧
      (t ∉ B → binarySearch B B.length t = some (-1) ∧
        ∀ fuel : Nat, B.length < fuel → binarySearchFuel fuel B B.length t = some (-1)) := by
  obtain ⟨r, hr, h⟩ := binarySearch_spec B t hs hlen
  have hb : binarySearch B B.length t = some r := hr (B.length + 1) (by omega)
  constructor
  · intro hm
    rcases h with ⟨_, hno⟩ | ⟨h0, h1, h2⟩
    · obtain ⟨k, hk, e⟩ := (mem_iff_getD B t).mp hm
      exact absurd e (hno k hk)
    · have e : ((r.toNat : Nat) : Int) = r := Int.toNat_of_nonneg h0
      exact ⟨r.toNat, by rw [hb, e], fun fuel hf => by rw [hr fuel hf, e], h1, h2⟩
  · intro hm
    rcases h with ⟨h1, _⟩ | ⟨_, h1, h2⟩
    · subst h1
      exact ⟨hb, hr⟩
    · exact absurd ((mem_iff_getD B t).mpr ⟨r.toNat, h1, h2⟩) hm

theorem binarySearch_sorted_witness :
    binarySearch [1, 3, 5, 7, 9] 5 7 = some 3 ∧ binarySearch [1, 3, 5, 7, 9] 5 4 = some (-1) ∧
      ((7 ∈ [1, 3, 5, 7, 9] → ∃ i : Nat,
          binarySearch [1, 3, 5, 7, 9] [1, 3, 5, 7, 9].length 7 = some (i : Int) ∧
          (∀ fuel : Nat, [1, 3, 5, 7, 9].length < fuel →
            binarySearchFuel fuel [1, 3, 5, 7, 9] [1, 3, 5, 7, 9].length 7 = some (i : Int)) ∧
          i < [1, 3, 5, 7, 9].length ∧ [1, 3, 5, 7, 9].getD i 0 = 7) ∧
        (7 ∉ [1, 3, 5, 7, 9] →
          binarySearch [1, 3, 5, 7, 9] [1, 3, 5, 7, 9].length 7 = some (-1) ∧
          ∀ fuel : Nat, [1, 3, 5, 7, 9].length < fuel →
            binarySearchFuel fuel [1, 3, 5, 7, 9] [1, 3, 5, 7, 9].length 7 = some (-1))) :=
  ⟨by decide, by decide, binarySearch_sorted [1, 3, 5, 7, 9] 7 (by decide) (by decide)⟩

/-! ## Swaps and rearrangements of a range -/

theorem swapIdx_perm (arr : List Nat) (i j : Nat) (hi : i < arr.length)
    (hj : j < arr.length) : (swapIdx arr i j).Perm arr := by
  rw [List.perm_iff_count]
  intro b
  have hj' : j < (arr.set i (arr.getD j 0)).length := by simpa using hj
  have e1 : (arr.set i (arr.getD j 0))[j] = arr[j] := by
    rw [List.getElem_set]
    split_ifs with h
    · exact List.getD_eq_getElem _ _ hj
    · rfl
  have c1 : (if arr[i] == b then 1 else 0) ≤ arr.count b := by
    split_ifs with h
    · have : arr[i] = b := by simpa using h
      exact List.count_pos_iff.mpr (this ▸ List.getElem_mem hi)
    · exact Nat.zero_le _
  unfold swapIdx
  rw [List.count_set _ _ _ _ hj', List.count_set _ _ _ _ hi, e1,
    List.getD_eq_getElem _ _ hj, List.getD_eq_getElem _ _ hi]
  omega

theorem swapAt_of_lt (arr : List Nat) (i j : Int) (hi0 : 0 ≤ i) (hi : i.toNat < arr.length)
    (hj0 : 0 ≤ j) (hj : j.toNat < arr.length) :
    swapAt arr i j = some (swapIdx arr i.toNat j.toNat) := by
  have hi' : i.toNat < (arr.set i.toNat (arr.getD j.toNat 0)).length := by simpa using hi
  have hj' : j.toNat < (arr.set i.toNat (arr.getD j.toNat 0)).length := by simpa using hj
  simp only [swapAt, readAt_of_lt arr i 0 hi0 hi, readAt_of_lt arr j 0 hj0 hj,
    writeAt_of_lt arr i _ hi0 hi, Option.bind_eq_bind, Option.some_bind,
    writeAt_of_lt _ j _ hj0 hj', swapIdx]

theorem shuffle_refl (lo hi : Int) (a : List Nat) : Shuffle lo hi a a :=
  ⟨rfl, List.Perm.refl _, fun _ _ => rfl, fun k h1 h2 => ⟨k, h1, h2, rfl⟩⟩

theorem shuffle_trans {lo hi : Int} {a b c : List Nat} (h1 : Shuffle lo hi a b)
    (h2 : Shuffle lo hi b c) : Shuffle lo hi a c := by
  obtain ⟨l1, p1, o1, i1⟩ := h1
  obtain ⟨l2, p2, o2, i2⟩ := h2
  refine ⟨l2.trans l1, p2.trans p1, fun k hk => (o2 k hk).trans (o1 k hk), fun k hk1 hk2 => ?_⟩
  obtain ⟨k', a1, a2, e⟩ := i2 k hk1 hk2
  obtain ⟨k'', b1, b2, e'⟩ := i1 k' a1 a2
  exact ⟨k'', b1, b2, e.trans e'⟩

theorem shuffle_mono {lo hi lo' hi' : Int} {a b : List Nat} (h : Shuffle lo hi a b)
    (hlo : lo' ≤ lo) (hhi : hi ≤ hi') : Shuffle lo' hi' a b := by
  obtain ⟨l1, p1, o1, i1⟩ := h
  refine ⟨l1, p1, fun k hk => o1 k (by omega), fun k hk1 hk2 => ?_⟩
  by_cases hin : lo ≤ (k : Int) ∧ (k : Int) ≤ hi
  · obtain ⟨k', a1, a2, e⟩ := i1 k hin.1 hin.2
    exact ⟨k', by omega, by omega, e⟩
  · exact ⟨k, hk1, hk2, o1 k (by omega)⟩

theorem shuffle_swap (lo hi : Int) (a : List Nat) (p q : Nat) (hp : p < a.length)
    (hq : q < a.length) (hp1 : lo ≤ (p : Int)) (hp2 : (p : Int) ≤ hi) (hq1 : lo ≤ (q : Int))
    (hq2 : (q : Int) ≤ hi) : Shuffle lo hi a (swapIdx a p q) := by
  refine ⟨length_swapIdx a p q, swapIdx_perm a p q hp hq, fun k hk => ?_, fun k hk1 hk2 => ?_⟩
  · rw [getD_swapIdx a p q k hp hq]
    split_ifs <;> first | rfl | omega
  · rw [getD_swapIdx a p q k hp hq]
    split_ifs
    · exact ⟨p, hp1, hp2, rfl⟩
    · exact ⟨q, hq1, hq2, rfl⟩
    · exact ⟨k, hk1, hk2, rfl⟩

/-! ## Partition -/

theorem partitionLoop_spec (pivot : Nat) (lo hi : Int) (hlo : 0 ≤ lo) :
    ∀ (n : Nat) (arr : List Nat) (i j : Int), hi < arr.length → lo - 1 ≤ i → i < j →
      j + n = hi →
      (∀ k : Nat, lo ≤ (k : Int) → (k : Int) ≤ i → arr.getD k 0 ≤ pivot) →
      (∀ k : Nat, i < (k : Int) → (k : Int) < j → pivot < arr.getD k 0) →
      ∃ (arr' : List Nat) (i' : Int), partitionLoop pivot n arr i j = some (arr', i') ∧
        lo - 1 ≤ i' ∧ i' < hi ∧ Shuffle lo (hi - 1) arr arr' ∧
        (∀ k : Nat, lo ≤ (k : Int) → (k : Int) ≤ i' → arr'.getD k 0 ≤ pivot) ∧
        (∀ k : Nat, i' < (k : Int) → (k : Int) < hi → pivot < arr'.getD k 0) := by
  intro n
  induction n with
  | zero =>
    intro arr i j _ hi1 hij hjn hle hgt
    have : j = hi := by omega
    subst this
    exact ⟨arr, i, rfl, hi1, hij, shuffle_refl _ _ _, hle, hgt⟩
  | succ n ih =>
    intro arr i j hhi hi1 hij hjn hle hgt
    have hj0 : 0 ≤ j := by omega
    have hjl : j.toNat < arr.length := by omega
    rw [partitionLoop]
    simp only [readAt_of_lt arr j 0 hj0 hjl, Option.bind_eq_bind, Option.some_bind]
    by_cases hc : arr.getD j.toNat 0 ≤ pivot
    · have hi0 : 0 ≤ i + 1 := by omega
      have hil : (i + 1).toNat < arr.length := by omega
      simp only [hc, if_true, swapAt_of_lt arr (i + 1) j hi0 hil hj0 hjl, Option.some_bind]
      have hsh : Shuffle lo (hi - 1) arr (swapIdx arr (i + 1).toNat j.toNat) :=
        shuffle_swap _ _ _ _ _ hil hjl (by omega) (by omega) (by omega) (by omega)
      obtain ⟨arr', i', he, b1, b2, sh, p1, p2⟩ :=
        ih (swapIdx arr (i + 1).toNat j.toNat) (i + 1) (j + 1)
          (by rw [length_swapIdx]; exact hhi) (by omega) (by omega) (by omega)
          (fun k hk1 hk2 => by
            rw [getD_swapIdx arr _ _ k hil hjl]
            split_ifs with h1 h2
            · have : i + 1 = j := by omega
              rw [show (i + 1).toNat = j.toNat by rw [this]]
              exact hc
            · exact hc
            · exact hle k hk1 (by omega))
          (fun k hk1 hk2 => by
            rw [getD_swapIdx arr _ _ k hil hjl]
            split_ifs with h1 h2
            · exact hgt (i + 1).toNat (by omega) (by omega)
            · omega
            · exact hgt k (by omega) (by omega))
      exact ⟨arr', i', he, by omega, b2, shuffle_trans hsh sh, p1, p2⟩
    · simp only [hc, if_false]
      obtain ⟨arr', i', he, b1, b2, sh, p1, p2⟩ :=
        ih arr i (j + 1) hhi hi1 (by omega) (by omega) hle
          (fun k hk1 hk2 => by
            by_cases hkj : (k : Int) = j
            · have : k = j.toNat := by omega
              rw [this]; omega
            · exact hgt k hk1 (by omega))
      exact ⟨arr', i', he, b1, b2, sh, p1, p2⟩

theorem partition_spec (arr : List Nat) (lo hi : Int) (hlo : 0 ≤ lo) (hlh : lo ≤ hi)
    (hhi : hi < arr.length) :
    ∃ (arr' : List Nat) (pi : Int), partition arr lo hi = some (arr', pi) ∧
      lo ≤ pi ∧ pi ≤ hi ∧ Shuffle lo hi arr arr' ∧
      (∀ k : Nat, lo ≤ (k : Int) → (k : Int) < pi → arr'.getD k 0 ≤ arr'.getD pi.toNat 0) ∧
      (∀ k : Nat, pi < (k : Int) → (k : Int) ≤ hi → arr'.getD pi.toNat 0 ≤ arr'.getD k 0) := by
  have hh0 : 0 ≤ hi := by omega
  have hhl : hi.toNat < arr.length := by omega
  obtain ⟨a1, i', he, b1, b2, sh, p1, p2⟩ :=
    partitionLoop_spec (arr.getD hi.toNat 0) lo hi hlo (hi - lo).toNat arr (lo - 1) lo hhi
      (le_refl _) (by omega) (by omega) (fun k h1 h2 => by omega) (fun k h1 h2 => by omega)
  have hlen : a1.length = arr.length := sh.1
  have hi0 : 0 ≤ i' + 1 := by omega
  have hil : (i' + 1).toNat < a1.length := by omega
  have hhl1 : hi.toNat < a1.length := by omega
  have hpiv : a1.getD hi.toNat 0 = arr.getD hi.toNat 0 := sh.2.2.1 hi.toNat (by omega)
  have hpi : (swapIdx a1 (i' + 1).toNat hi.toNat).getD (i' + 1).toNat 0 =
      arr.getD hi.toNat 0 := by
    rw [getD_swapIdx a1 _ _ _ hil hhl1, ← hpiv]
    by_cases h : (i' + 1).toNat = hi.toNat
    · rw [if_pos h, h]
    · rw [if_neg h, if_pos rfl]
  refine ⟨swapIdx a1 (i' + 1).toNat hi.toNat, i' + 1, ?_, by omega, by omega, ?_, ?_, ?_⟩
  · simp only [partition, readAt_of_lt arr hi 0 hh0 hhl, Option.bind_eq_bind,
      Option.some_bind, he, swapAt_of_lt a1 (i' + 1) hi hi0 hil hh0 hhl1]
  · exact shuffle_trans (shuffle_mono sh (le_refl _) (by omega))
      (shuffle_swap _ _ _ _ _ hil hhl1 (by omega) (by omega) (by omega) (by omega))
  · intro k hk1 hk2
    rw [hpi, getD_swapIdx a1 _ _ k hil hhl1, if_neg (by omega), if_neg (by omega)]
    exact p1 k hk1 (by omega)
  · intro k hk1 hk2
    rw [hpi, getD_swapIdx a1 _ _ k hil hhl1]
    by_cases hk : k = hi.toNat
    · rw [if_pos hk]
      exact Nat.le_of_lt (p2 _ (by omega) (by omega))
    · rw [if_neg hk, if_neg (by omega)]
      exact Nat.le_of_lt (p2 k (by omega) (by omega))


/-! ## The index stack of `quickSort` -/

theorem rangeSum_append (a b : List (Int × Int)) :
    rangeSum (a ++ b) = rangeSum a + rangeSum b := by
  induction a with
  | nil => simp [rangeSum]
  | cons r rs ih => simp [rangeSum, ih, Nat.add_assoc]

theorem two_mul_length_le_rangeSum (rs : List (Int × Int)) (h : ∀ r ∈ rs, r.1 < r.2) :
    2 * rs.length ≤ rangeSum rs := by
  induction rs with
  | nil => simp [rangeSum]
  | cons r rs ih =>
    have h1 := h r (List.mem_cons_self _ _)
    have h2 := ih (fun s hs => h s (List.mem_cons_of_mem _ hs))
    simp only [List.length_cons, rangeSum]
    omega

theorem stackRep_top_eq {stack : List Int} :
    ∀ {rs : List (Int × Int)} {top : Int}, StackRep stack rs top →
      top = 2 * (rs.length : Int) - 1 := by
  intro rs
  induction rs with
  | nil => intro top h; simpa [StackRep] using h
  | cons r rs ih =>
    intro top h
    have := ih h.2.2.2.2
    simp only [List.length_cons]
    push_cast
    omega

theorem stackRep_set_above {stack : List Int} (idx : Nat) (v : Int) :
    ∀ {rs : List (Int × Int)} {top : Int}, StackRep stack rs top → top < (idx : Int) →
      StackRep (stack.set idx v) rs top := by
  intro rs
  induction rs with
  | nil => intro top h _; exact h
  | cons r rs ih =>
    intro top h hlt
    obtain ⟨h1, h2, h3, h4, h5⟩ := h
    refine ⟨h1, by simpa using h2, ?_, ?_, ih h5 (by omega)⟩
    · rw [getD_set_ne _ _ _ _ _ (by omega)]; exact h3
    · rw [getD_set_ne _ _ _ _ _ (by omega)]; exact h4

theorem push2_spec (stack : List Int) (rs : List (Int × Int)) (top a b : Int)
    (h : StackRep stack rs top) (hcap : 2 * rs.length + 2 ≤ stack.length) :
    ∃ stack' : List Int, push2 stack top a b = some (stack', top + 2) ∧
      stack'.length = stack.length ∧ StackRep stack' ((a, b) :: rs) (top + 2) := by
  have ht := stackRep_top_eq h
  have w1 : (top + 1).toNat < stack.length := by omega
  have w2 : (top + 2).toNat < (stack.set (top + 1).toNat a).length := by
    rw [List.length_set]; omega
  refine ⟨(stack.set (top + 1).toNat a).set (top + 2).toNat b, ?_, by simp, ?_⟩
  · simp only [push2, writeAt_of_lt stack (top + 1) a (by omega) w1, Option.bind_eq_bind,
      Option.some_bind, writeAt_of_lt _ (top + 2) b (by omega) w2]
  · refine ⟨by omega, by simpa using w2, ?_, ?_, ?_⟩
    · exact getD_set_self _ _ _ _ w2
    · have e : (top + 2 - 1).toNat = (top + 1).toNat := by congr 1; omega
      rw [e, getD_set_ne _ _ _ _ _ (by omega)]
      exact getD_set_self _ _ _ _ w1
    · have e : top + 2 - 2 = top := by omega
      rw [e]
      exact stackRep_set_above _ _ (stackRep_set_above _ _ h (by omega)) (by omega)


/-! ## One iteration of the `quickSort` loop -/

theorem mem_pushedRanges (lo hi pi : Int) (r : Int × Int) :
    r ∈ pushedRanges lo hi pi ↔
      (pi + 1 < hi ∧ r = (pi + 1, hi)) ∨ (pi - 1 > lo ∧ r = (lo, pi - 1)) := by
  unfold pushedRanges
  by_cases h1 : pi + 1 < hi <;> by_cases h2 : pi - 1 > lo <;> simp [h1, h2]

theorem rangeSum_pushedRanges (lo hi pi : Int) (h1 : lo ≤ pi) (h2 : pi ≤ hi) :
    rangeSum (pushedRanges lo hi pi) + 1 ≤ (hi - lo + 1).toNat := by
  unfold pushedRanges
  by_cases c1 : pi + 1 < hi <;> by_cases c2 : pi - 1 > lo <;>
    simp only [c1, c2, if_true, if_false, rangeSum, List.append_nil, List.nil_append,
      List.singleton_append] <;> omega

theorem pairwise_pushedRanges (lo hi pi : Int) :
    (pushedRanges lo hi pi).Pairwise RangeDisjoint := by
  unfold pushedRanges
  by_cases c1 : pi + 1 < hi <;> by_cases c2 : pi - 1 > lo <;>
    simp [c1, c2, RangeDisjoint]
  omega

theorem qsInv_step {B arr arr' : List Nat} {lo hi pi : Int} {rest : List (Int × Int)}
    (hinv : QSInv B arr ((lo, hi) :: rest)) (h1 : lo ≤ pi) (h2 : pi ≤ hi)
    (sh : Shuffle lo hi arr arr')
    (hle : ∀ k : Nat, lo ≤ (k : Int) → (k : Int) < pi →
      arr'.getD k 0 ≤ arr'.getD pi.toNat 0)
    (hge : ∀ k : Nat, pi < (k : Int) → (k : Int) ≤ hi →
      arr'.getD pi.toNat 0 ≤ arr'.getD k 0) :
    QSInv B arr' (pushedRanges lo hi pi ++ rest) ∧
      rangeSum (pushedRanges lo hi pi ++ rest) < rangeSum ((lo, hi) :: rest) := by
  obtain ⟨hb0, hb1, hb2⟩ := hinv.bounds (lo, hi) (List.mem_cons_self _ _)
  simp only at hb0 hb1 hb2
  obtain ⟨hd1, hd2⟩ := List.pairwise_cons.mp hinv.disj
  have hsum := rangeSum_pushedRanges lo hi pi h1 h2
  have hsz : rangeSum (pushedRanges lo hi pi ++ rest) < rangeSum ((lo, hi) :: rest) := by
    rw [rangeSum_append]; simp only [rangeSum]; omega
  refine ⟨⟨sh.1.trans hinv.len, sh.2.1.trans hinv.perm, ?_, ?_, ?_, ?_⟩, hsz⟩
  · intro r hr
    rcases List.mem_append.mp hr with hr | hr
    · rcases (mem_pushedRanges lo hi pi r).mp hr with ⟨c, rfl⟩ | ⟨c, rfl⟩
      · exact ⟨by simp only; omega, by simp only; omega, by simp only; omega⟩
      · exact ⟨by simp only; omega, by simp only; omega, by simp only; omega⟩
    · exact hinv.bounds r (List.mem_cons_of_mem _ hr)
  · refine List.pairwise_append.mpr ⟨pairwise_pushedRanges lo hi pi, hd2, fun r hr s hs => ?_⟩
    have := hd1 s hs
    unfold RangeDisjoint at this ⊢
    simp only at this
    rcases (mem_pushedRanges lo hi pi r).mp hr with ⟨c, rfl⟩ | ⟨c, rfl⟩
    · simp only; omega
    · simp only; omega
  · intro p q hpq hq
    have hold := hinv.ord
    by_cases hp : lo ≤ (p : Int) ∧ (p : Int) ≤ hi
    · by_cases hqi : lo ≤ (q : Int) ∧ (q : Int) ≤ hi
      · by_cases c1 : (q : Int) < pi
        · exact Or.inr ⟨(lo, pi - 1), List.mem_append_left _
            ((mem_pushedRanges lo hi pi _).mpr (Or.inr ⟨by omega, rfl⟩)),
            by simp only; omega, by simp only; omega⟩
        · by_cases c2 : pi < (p : Int)
          · exact Or.inr ⟨(pi + 1, hi), List.mem_append_left _
              ((mem_pushedRanges lo hi pi _).mpr (Or.inl ⟨by omega, rfl⟩)),
              by simp only; omega, by simp only; omega⟩
          · left
            have a1 : arr'.getD p 0 ≤ arr'.getD pi.toNat 0 := by
              by_cases e : (p : Int) = pi
              · have : p = pi.toNat := by omega
                rw [this]
              · exact hle p hp.1 (by omega)
            have a2 : arr'.getD pi.toNat 0 ≤ arr'.getD q 0 := by
              by_cases e : (q : Int) = pi
              · have : q = pi.toNat := by omega
                rw [this]
              · exact hge q (by omega) hqi.2
            exact le_trans a1 a2
      · left
        obtain ⟨p', hp1, hp2, e⟩ := sh.2.2.2 p hp.1 hp.2
        rw [e, sh.2.2.1 q (by omega)]
        rcases hold p' q (by omega) hq with h | ⟨r, hr, hr1, hr2⟩
        · exact h
        · rcases List.mem_cons.mp hr with rfl | hr'
          · simp only at hr2; omega
          · have := hd1 r hr'
            unfold RangeDisjoint at this
            simp only at this
            omega
    · by_cases hqi : lo ≤ (q : Int) ∧ (q : Int) ≤ hi
      · left
        obtain ⟨q', hq1, hq2, e⟩ := sh.2.2.2 q hqi.1 hqi.2
        rw [e, sh.2.2.1 p (by omega)]
        rcases hold p q' (by omega) (by omega) with h | ⟨r, hr, hr1, hr2⟩
        · exact h
        · rcases List.mem_cons.mp hr with rfl | hr'
          · simp only at hr1; omega
          · have := hd1 r hr'
            unfold RangeDisjoint at this
            simp only at this
            omega
      · rw [sh.2.2.1 p (by omega), sh.2.2.1 q (by omega)]
        rcases hold p q hpq hq with h | ⟨r, hr, hr1, hr2⟩
        · exact Or.inl h
        · rcases List.mem_cons.mp hr with rfl | hr'
          · simp only at hr1 hr2; omega
          · exact Or.inr ⟨r, List.mem_append_right _ hr', hr1, hr2⟩
  · exact le_of_lt (lt_of_lt_of_le hsz hinv.size)


theorem quickSortStep_spec {B arr : List Nat} {stack : List Int} {top lo hi : Int}
    {rest : List (Int × Int)} (hinv : QSInv B arr ((lo, hi) :: rest))
    (hst : StackRep stack ((lo, hi) :: rest) top) (hsl : stack.length = B.length) :
    ∃ (arr' : List Nat) (stack' : List Int) (top' : Int) (rs' : List (Int × Int)),
      quickSortStep arr stack top = some (arr', stack', top') ∧ QSInv B arr' rs' ∧
        StackRep stack' rs' top' ∧ stack'.length = B.length ∧
        rangeSum rs' < rangeSum ((lo, hi) :: rest) := by
  obtain ⟨t1, t2, t3, t4, t5⟩ := hst
  simp only at t3 t4
  obtain ⟨hb0, hb1, hb2⟩ := hinv.bounds (lo, hi) (List.mem_cons_self _ _)
  simp only at hb0 hb1 hb2
  have r1 : readAt stack top = some hi := by
    rw [readAt_of_lt stack top 0 (by omega) t2, t3]
  have r2 : readAt stack (top - 1) = some lo := by
    rw [readAt_of_lt stack (top - 1) 0 (by omega) (by omega), t4]
  obtain ⟨arr', pi, he, p1, p2, sh, hle, hge⟩ :=
    partition_spec arr lo hi hb0 (le_of_lt hb1) (by rw [hinv.len]; exact hb2)
  obtain ⟨hinv', hsz⟩ := qsInv_step hinv p1 p2 sh hle hge
  have hcap : 2 * (pushedRanges lo hi pi ++ rest).length ≤ B.length :=
    le_trans (two_mul_length_le_rangeSum _ (fun r hr => (hinv'.bounds r hr).2.1)) hinv'.size
  simp only [quickSortStep, r1, r2, he, Option.bind_eq_bind, Option.some_bind]
  unfold pushedRanges at hinv' hsz hcap
  by_cases c2 : pi - 1 > lo
  · obtain ⟨s1, e1, l1, rep1⟩ := push2_spec stack rest (top - 2) lo (pi - 1) t5 (by
      simp only [c2, if_true, List.length_append, List.length_cons] at hcap
      omega)
    have et : top - 2 + 2 = top := by omega
    rw [et] at e1 rep1
    simp only [c2, if_true, e1, Option.some_bind]
    by_cases c1 : pi + 1 < hi
    · obtain ⟨s2, e2, l2, rep2⟩ := push2_spec s1 ((lo, pi - 1) :: rest) top (pi + 1) hi rep1 (by
        simp only [c1, c2, if_true, List.length_append, List.length_cons,
          List.length_nil] at hcap
        simp only [List.length_cons]
        omega)
      simp only [c1, if_true, e2, Option.some_bind]
      refine ⟨arr', s2, top + 2, _, rfl, ?_, rep2, by omega, ?_⟩
      · simpa [c1, c2] using hinv'
      · simpa [c1, c2] using hsz
    · simp only [c1, if_false, Option.some_bind]
      refine ⟨arr', s1, top, _, rfl, ?_, rep1, by omega, ?_⟩
      · simpa [c1, c2] using hinv'
      · simpa [c1, c2] using hsz
  · simp only [c2, if_false, Option.some_bind]
    by_cases c1 : pi + 1 < hi
    · obtain ⟨s2, e2, l2, rep2⟩ := push2_spec stack rest (top - 2) (pi + 1) hi t5 (by
        simp only [c1, if_true, List.length_append, List.length_cons] at hcap
        omega)
      simp only [c1, if_true, e2, Option.some_bind]
      refine ⟨arr', s2, top - 2 + 2, _, rfl, ?_, rep2, by omega, ?_⟩
      · simpa [c1, c2] using hinv'
      · simpa [c1, c2] using hsz
    · simp only [c1, if_false, Option.some_bind]
      refine ⟨arr', stack, top - 2, _, rfl, ?_, t5, hsl, ?_⟩
      · simpa [c1, c2] using hinv'
      · simpa [c1, c2] using hsz


/-! ## The `quickSort` loop and kernel -/

theorem sorted_of_ord (arr : List Nat)
    (h : ∀ p q : Nat, p < q → q < arr.length → arr.getD p 0 ≤ arr.getD q 0) :
    arr.Sorted (· ≤ ·) := by
  apply List.pairwise_iff_getElem.mpr
  intro i j hi hj hij
  have := h i j hij hj
  rwa [List.getD_eq_getElem _ _ hi, List.getD_eq_getElem _ _ hj] at this

theorem quickSortLoop_spec (B : List Nat) :
    ∀ (fuel : Nat) (arr : List Nat) (stack : List Int) (top : Int) (rs : List (Int × Int)),
      QSInv B arr rs → StackRep stack rs top → stack.length = B.length →
      rangeSum rs ≤ fuel → 1 ≤ fuel →
      ∃ out : List Nat, quickSortLoop fuel arr stack top = some out ∧ out.Perm B ∧
        out.Sorted (· ≤ ·) := by
  intro fuel
  induction fuel with
  | zero => intro arr stack top rs _ _ _ _ h; omega
  | succ fuel ih =>
    intro arr stack top rs hinv hst hsl hf _
    rw [quickSortLoop]
    cases rs with
    | nil =>
      have ht : top = -1 := hst
      have hneg : ¬ (0 ≤ top) := by omega
      refine ⟨arr, by rw [if_neg hneg], hinv.perm, sorted_of_ord arr (fun p q hpq hq => ?_)⟩
      rcases hinv.ord p q hpq (by rw [← hinv.len]; exact hq) with h | ⟨r, hr, _⟩
      · exact h
      · exact absurd hr (List.not_mem_nil r)
    | cons r rest =>
      obtain ⟨lo, hi⟩ := r
      have ht : 0 ≤ top := by have := hst.1; omega
      obtain ⟨hb0, hb1, hb2⟩ := hinv.bounds (lo, hi) (List.mem_cons_self _ _)
      simp only at hb0 hb1 hb2
      obtain ⟨arr', stack', top', rs', he, hinv', hst', hsl', hsz⟩ :=
        quickSortStep_spec hinv hst hsl
      have hf' : rangeSum rs' ≤ fuel := by omega
      have hf1 : 1 ≤ fuel := by
        simp only [rangeSum] at hf
        omega
      simp only [ht, if_true, he, Option.bind_eq_bind, Option.some_bind]
      exact ih arr' stack' top' rs' hinv' hst' hsl' hf' hf1

theorem quickSortLoop_mono :
    ∀ (fuel : Nat) (arr : List Nat) (stack : List Int) (top : Int) (out : List Nat),
      quickSortLoop fuel arr stack top = some out →
      ∀ fuel' : Nat, fuel ≤ fuel' → quickSortLoop fuel' arr stack top = some out := by
  intro fuel
  induction fuel with
  | zero => intro arr stack top out h; simp [quickSortLoop] at h
  | succ fuel ih =>
    intro arr stack top out h fuel' hle
    obtain ⟨f, rfl⟩ : ∃ f, fuel' = f + 1 := ⟨fuel' - 1, by omega⟩
    rw [quickSortLoop] at h ⊢
    by_cases ht : 0 ≤ top
    · simp only [ht, if_true, Option.bind_eq_bind] at h ⊢
      cases hs : quickSortStep arr stack top with
      | none => simp [hs] at h
      | some s =>
        simp only [hs, Option.some_bind] at h ⊢
        exact ih _ _ _ _ h f (by omega)
    · simpa [ht] using h

theorem quickSortFuel_spec (B : List Nat) (hlen : B.length < 2 ^ 31) (h2 : ¬ B.length ≤ 1) :
    ∃ out : List Nat, quickSortFuel B.length B B.length = some out ∧ out.Perm B ∧
      out.Sorted (· ≤ ·) ∧
      ∀ fuel : Nat, B.length ≤ fuel → quickSortFuel fuel B B.length = some out := by
  have hpred : toInt32 (u32Pred B.length) = (B.length : Int) - 1 :=
    toInt32_u32Pred _ (by omega) hlen
  obtain ⟨stack, e, l, rep⟩ :=
    push2_spec (List.replicate B.length (0 : Int)) [] (-1) 0 ((B.length : Int) - 1) rfl
      (by simp only [List.length_nil, List.length_replicate]; omega)
  have hinv : QSInv B B [((0 : Int), (B.length : Int) - 1)] :=
    { len := rfl
      perm := List.Perm.refl _
      bounds := by
        intro r hr
        rw [List.mem_singleton] at hr
        subst hr
        exact ⟨le_refl _, by simp only; omega, by simp only; omega⟩
      disj := List.pairwise_singleton _ _
      ord := fun p q _ hq =>
        Or.inr ⟨_, List.mem_singleton.mpr rfl, by simp only; omega, by simp only; omega⟩
      size := by simp only [rangeSum]; omega }
  have hsl : stack.length = B.length := by rw [l, List.length_replicate]
  obtain ⟨out, ho, hp, hs⟩ :=
    quickSortLoop_spec B B.length B stack (-1 + 2) _ hinv rep hsl
      (by simp only [rangeSum]; omega) (by omega)
  have key : ∀ fuel : Nat, B.length ≤ fuel → quickSortFuel fuel B B.length = some out := by
    intro fuel hf
    simp only [quickSortFuel, h2, if_false, hpred, e, Option.bind_eq_bind, Option.some_bind]
    exact quickSortLoop_mono _ _ _ _ _ ho fuel hf
  exact ⟨out, key _ (le_refl _), hp, hs, key⟩

theorem quickSort_correct (B : List Nat) (hlen : B.length < 2 ^ 31) :
    ∃ out : List Nat, quickSort B B.length = some out ∧
      (∀ fuel : Nat, B.length ≤ fuel → quickSortFuel fuel B B.length = some out) ∧
      out.Sorted (· ≤ ·) ∧ out.Perm B ∧ (B.length ≤ 1 → out = B) := by
  by_cases h : B.length ≤ 1
  · refine ⟨B, by simp [quickSort, quickSortFuel, h], fun fuel _ => by simp [quickSortFuel, h],
      ?_, List.Perm.refl _, fun _ => rfl⟩
    apply sorted_of_ord
    intro p q hpq hq
    omega
  · obtain ⟨out, h1, hp, hs, hk⟩ := quickSortFuel_spec B hlen h
    exact ⟨out, h1, hk, hs, hp, fun h' => absurd h' h⟩

/-- C1: on a buffer of length below `2 ^ 31`, `quickSort` terminates (any loop
fuel from `length` on gives the same result) and leaves a buffer that is
non-decreasing and a permutation of the input; a buffer of length at most 1
is returned unchanged. -/
theorem quickSort_sorts (B : List Nat) (hlen : B.length < 2 ^ 31) :
    ∃ out : List Nat, quickSort B B.length = some out ∧
      (∀ fuel : Nat, B.length ≤ fuel → quickSortFuel fuel B B.length = some out) ∧
      out.Sorted (· ≤ ·) ∧ out.Perm B ∧ (B.length ≤ 1 → out = B) :=
  quickSort_correct B hlen

theorem quickSort_sorts_witness :
    quickSort [5, 3, 1, 4, 2] 5 = some [1, 2, 3, 4, 5] ∧
      ∃ out : List Nat, quickSort [5, 3, 1, 4, 2] [5, 3, 1, 4, 2].length = some out ∧
        (∀ fuel : Nat, [5, 3, 1, 4, 2].length ≤ fuel →
          quickSortFuel fuel [5, 3, 1, 4, 2] [5, 3, 1, 4, 2].length = some out) ∧
        out.Sorted (· ≤ ·) ∧ out.Perm [5, 3, 1, 4, 2] ∧
        ([5, 3, 1, 4, 2].length ≤ 1 → out = [5, 3, 1, 4, 2]) :=
  ⟨by decide, quickSort_sorts [5, 3, 1, 4, 2] (by decide)⟩


/-! ## Distinct values -/

theorem copyLoop_append (rest : List Nat) :
    ∀ (pre junk : List Nat), junk.length = rest.length →
      copyLoop (pre ++ rest) rest.length pre.length (pre ++ junk) = pre ++ rest := by
  induction rest with
  | nil =>
    intro pre junk h
    have : junk = [] := List.eq_nil_of_length_eq_zero h
    simp [copyLoop, this]
  | cons x xs ih =>
    intro pre junk h
    cases junk with
    | nil => simp at h
    | cons y ys =>
      have h' : ys.length = xs.length := by simpa using h
      have := ih (pre ++ [x]) ys h'
      simp only [List.append_assoc, List.singleton_append, List.length_append,
        List.length_singleton] at this
      simp only [List.length_cons, copyLoop, getD_append_length, set_append_length, this]

theorem uniqueLoop_append (rest : List Nat) :
    ∀ (pre : List Nat) (y unique : Nat), unique + rest.length < 2 ^ 32 →
      uniqueLoop (pre ++ y :: rest) rest.length (pre.length + 1) unique =
        unique + changes (y :: rest) := by
  induction rest with
  | nil => intro pre y unique _; simp [uniqueLoop, changes]
  | cons z t ih =>
    intro pre y unique hu
    simp only [List.length_cons] at hu
    have e1 : (pre ++ y :: z :: t).getD (pre.length + 1) 0 = z := by
      have := getD_append_length (pre ++ [y]) t z
      simpa using this
    have e2 : (pre ++ y :: z :: t).getD (pre.length + 1 - 1) 0 = y := by
      simpa using getD_append_length pre (z :: t) y
    have h := ih (pre ++ [y]) z
    simp only [List.append_assoc, List.singleton_append, List.length_append,
      List.length_singleton] at h
    simp only [List.length_cons, uniqueLoop, e1, e2, changes]
    by_cases c : z = y
    · subst c
      simp only [ne_eq, not_true_eq_false, if_false]
      rw [h unique (by omega)]
      omega
    · have hm : (unique + 1) % 2 ^ 32 = unique + 1 := Nat.mod_eq_of_lt (by omega)
      simp only [ne_eq, c, not_false_eq_true, if_true, hm]
      rw [h (unique + 1) (by omega)]
      omega

theorem changes_sorted (rest : List Nat) :
    ∀ y : Nat, (y :: rest).Sorted (· ≤ ·) → 1 + changes (y :: rest) = (y :: rest).dedup.length := by
  induction rest with
  | nil => intro y _; simp [changes]
  | cons z t ih =>
    intro y hs
    have hs' : (z :: t).Sorted (· ≤ ·) := hs.of_cons
    have hy : ∀ b ∈ z :: t, y ≤ b := List.rel_of_sorted_cons hs
    have hz : ∀ b ∈ t, z ≤ b := List.rel_of_sorted_cons hs'
    have := ih z hs'
    by_cases c : z = y
    · subst c
      rw [List.dedup_cons_of_mem (List.mem_cons_self _ _)]
      simp only [changes, ne_eq, not_true_eq_false, if_false]
      omega
    · have hlt : y < z := lt_of_le_of_ne (hy z (List.mem_cons_self _ _)) (Ne.symm c)
      have hnm : y ∉ z :: t := by
        intro hm
        rcases List.mem_cons.mp hm with e | hm'
        · omega
        · have := hz y hm'
          omega
      rw [List.dedup_cons_of_not_mem hnm]
      simp only [changes, ne_eq, c, not_false_eq_true, if_true, List.length_cons]
      omega

theorem countUnique_eq (B : List Nat) (hlen : B.length < 2 ^ 31) :
    countUnique B B.length = some (B, B.toFinset.card) := by
  unfold countUnique
  by_cases h0 : B.length = 0
  · have : B = [] := List.eq_nil_of_length_eq_zero h0
    subst this
    simp
  · have hcopy : copyLoop B B.length 0 (List.replicate B.length 0) = B := by
      simpa using copyLoop_append B [] (List.replicate B.length 0) (by simp)
    obtain ⟨out, ho, _, hs, hp, _⟩ := quickSort_correct B hlen
    simp only [h0, if_false, hcopy, ho, Option.bind_eq_bind, Option.some_bind]
    have hol : out.length = B.length := hp.length_eq
    cases out with
    | nil => simp at hol; omega
    | cons y rest =>
      have hr : rest.length = B.length - 1 := by simp at hol; omega
      have := uniqueLoop_append rest [] y 1 (by omega)
      simp only [List.nil_append, List.length_nil, Nat.zero_add] at this
      rw [← hr, this, changes_sorted rest y hs, ← List.card_toFinset,
        List.toFinset_eq_of_perm _ _ hp]

/-- C4: on a buffer of length below `2 ^ 31` (the range of the `int` indices
of the sort), `countUnique` returns the number of distinct values of the
buffer: `0` on the empty buffer, between `1` and the length otherwise. -/
theorem countUnique_distinct (B : List Nat) (hlen : B.length < 2 ^ 31) :
    (countUnique B B.length).map Prod.snd = some B.toFinset.card ∧
      (B = [] → (countUnique B B.length).map Prod.snd = some 0) ∧
      (B ≠ [] → 1 ≤ B.toFinset.card ∧ B.toFinset.card ≤ B.length) := by
  have h := countUnique_eq B hlen
  refine ⟨by rw [h]; rfl, fun e => by rw [h, e]; rfl, fun hne => ⟨?_, List.toFinset_card_le B⟩⟩
  obtain ⟨x, hx⟩ := List.exists_mem_of_ne_nil B hne
  exact Finset.card_pos.mpr ⟨x, List.mem_toFinset.mpr hx⟩

theorem countUnique_distinct_witness :
    (countUnique [1, 1, 2, 3, 3, 3] 6).map Prod.snd = some 3 ∧
      ((countUnique [1, 1, 2, 3, 3, 3] [1, 1, 2, 3, 3, 3].length).map Prod.snd =
          some [1, 1, 2, 3, 3, 3].toFinset.card ∧
        ([1, 1, 2, 3, 3, 3] = [] →
          (countUnique [1, 1, 2, 3, 3, 3] [1, 1, 2, 3, 3, 3].length).map Prod.snd = some 0) ∧
        ([1, 1, 2, 3, 3, 3] ≠ [] → 1 ≤ [1, 1, 2, 3, 3, 3].toFinset.card ∧
          [1, 1, 2, 3, 3, 3].toFinset.card ≤ [1, 1, 2, 3, 3, 3].length)) :=
  ⟨by decide, countUnique_distinct [1, 1, 2, 3, 3, 3] (by decide)⟩

/-! ## Reverse: positions -/

/-- C11: `reverseArray` keeps the length `n` and leaves at every index
`i < n` the element that was at index `n - 1 - i` (for odd `n` the middle
element stays in place). -/
theorem reverseArray_positions (B : List Nat) :
    (reverseArray B B.length).length = B.length ∧
      (∀ i : Nat, i < B.length →
        (reverseArray B B.length).getD i 0 = B.getD (B.length - 1 - i) 0) ∧
      (B.length % 2 = 1 →
        (reverseArray B B.length).getD (B.length / 2) 0 = B.getD (B.length / 2) 0) := by
  refine ⟨length_reverseArray B, fun i hi => getD_reverseArray B i hi, fun hodd => ?_⟩
  rw [getD_reverseArray B _ (by omega)]
  congr 1
  omega

/-! ## Maximum and minimum: scalar kernels -/

theorem findMaxLoop_append (rest : List Nat) :
    ∀ (pre : List Nat) (m : Nat),
      (findMaxLoop (pre ++ rest) rest.length pre.length m = m ∨
          findMaxLoop (pre ++ rest) rest.length pre.length m ∈ rest) ∧
        m ≤ findMaxLoop (pre ++ rest) rest.length pre.length m ∧
        ∀ x ∈ rest, x ≤ findMaxLoop (pre ++ rest) rest.length pre.length m := by
  induction rest with
  | nil => intro pre m; simp [findMaxLoop]
  | cons x xs ih =>
    intro pre m
    have h := ih (pre ++ [x]) (if x > m then x else m)
    simp only [List.append_assoc, List.singleton_append, List.length_append,
      List.length_singleton] at h
    simp only [List.length_cons, findMaxLoop, getD_append_length]
    split_ifs at h ⊢ with c
    all_goals
      obtain ⟨h1, h2, h3⟩ := h
      refine ⟨?_, by omega, ?_⟩
      · rcases h1 with e | hm
        · first
            | exact Or.inl e
            | exact Or.inr (by rw [e]; exact List.mem_cons_self _ _)
        · exact Or.inr (List.mem_cons_of_mem _ hm)
      · intro y hy
        rcases List.mem_cons.mp hy with rfl | hy'
        · omega
        · exact h3 y hy'

theorem findMinLoop_append (rest : List Nat) :
    ∀ (pre : List Nat) (m : Nat),
      (findMinLoop (pre ++ rest) rest.length pre.length m = m ∨
          findMinLoop (pre ++ rest) rest.length pre.length m ∈ rest) ∧
        findMinLoop (pre ++ rest) rest.length pre.length m ≤ m ∧
        ∀ x ∈ rest, findMinLoop (pre ++ rest) rest.length pre.length m ≤ x := by
  induction rest with
  | nil => intro pre m; simp [findMinLoop]
  | cons x xs ih =>
    intro pre m
    have h := ih (pre ++ [x]) (if x < m then x else m)
    simp only [List.append_assoc, List.singleton_append, List.length_append,
      List.length_singleton] at h
    simp only [List.length_cons, findMinLoop, getD_append_length]
    split_ifs at h ⊢ with c
    all_goals
      obtain ⟨h1, h2, h3⟩ := h
      refine ⟨?_, by omega, ?_⟩
      · rcases h1 with e | hm
        · first
            | exact Or.inl e
            | exact Or.inr (by rw [e]; exact List.mem_cons_self _ _)
        · exact Or.inr (List.mem_cons_of_mem _ hm)
      · intro y hy
        rcases List.mem_cons.mp hy with rfl | hy'
        · omega
        · exact h3 y hy'

/-- C12: on a non-empty buffer `findMax` returns an element of the buffer
that is at least every element, and `findMin` an element that is at most
every element. -/
theorem findMax_findMin_extremal (B : List Nat) (hne : B ≠ []) :
    (findMax B B.length ∈ B ∧ ∀ x ∈ B, x ≤ findMax B B.length) ∧
      (findMin B B.length ∈ B ∧ ∀ x ∈ B, findMin B B.length ≤ x) := by
  cases B with
  | nil => exact absurd rfl hne
  | cons a rest =>
    have hmax := findMaxLoop_append rest [a] a
    have hmin := findMinLoop_append rest [a] a
    simp only [List.singleton_append, List.length_singleton] at hmax hmin
    have e1 : findMax (a :: rest) (a :: rest).length = findMaxLoop (a :: rest) rest.length 1 a := by
      simp [findMax]
    have e2 : findMin (a :: rest) (a :: rest).length = findMinLoop (a :: rest) rest.length 1 a := by
      simp [findMin]
    rw [e1, e2]
    obtain ⟨a1, a2, a3⟩ := hmax
    obtain ⟨b1, b2, b3⟩ := hmin
    refine ⟨⟨?_, ?_⟩, ⟨?_, ?_⟩⟩
    · rcases a1 with e | hm
      · rw [e]; exact List.mem_cons_self _ _
      · exact List.mem_cons_of_mem _ hm
    · intro x hx
      rcases List.mem_cons.mp hx with rfl | hx'
      · exact a2
      · exact a3 x hx'
    · rcases b1 with e | hm
      · rw [e]; exact List.mem_cons_self _ _
      · exact List.mem_cons_of_mem _ hm
    · intro x hx
      rcases List.mem_cons.mp hx with rfl | hx'
      · exact b2
      · exact b3 x hx'

theorem findMax_findMin_extremal_witness :
    (findMax [4, 9, 2, 9, 1] [4, 9, 2, 9, 1].length ∈ [4, 9, 2, 9, 1] ∧
        ∀ x ∈ [4, 9, 2, 9, 1], x ≤ findMax [4, 9, 2, 9, 1] [4, 9, 2, 9, 1].length) ∧
      (findMin [4, 9, 2, 9, 1] [4, 9, 2, 9, 1].length ∈ [4, 9, 2, 9, 1] ∧
        ∀ x ∈ [4, 9, 2, 9, 1], findMin [4, 9, 2, 9, 1] [4, 9, 2, 9, 1].length ≤ x) :=
  findMax_findMin_extremal [4, 9, 2, 9, 1] (by decide)

/-! ## The empty buffer -/

/-- C13: with `length = 0` every kernel returns its sentinel: the sums, the
extrema and `countUnique` give `0`, `calculateAverage` and `calculateVariance`
give `0`, and `binarySearch` gives `-1` for every target, whatever the loop
fuel, reading no element (a read of the empty buffer fails in this model). -/
theorem empty_buffer_sentinels (arr : List Nat) :
    sumArray arr 0 = 0 ∧ sumArraySIMD arr 0 = 0 ∧
      findMax arr 0 = 0 ∧ findMin arr 0 = 0 ∧ findMaxSIMD arr 0 = 0 ∧ findMinSIMD arr 0 = 0 ∧
      countUnique arr 0 = some (arr, 0) ∧
      (∀ (R : Type) [Field R], (calculateAverage arr 0 : R) = 0 ∧
        (calculateVariance arr 0 : R) = 0) ∧
      (∀ target : Nat, binarySearch arr 0 target = some (-1) ∧
        toInt32 (u32Pred 0) = -1 ∧
        ∀ fuel : Nat, 0 < fuel → binarySearchFuel fuel arr 0 target = some (-1)) := by
  refine ⟨rfl, rfl, rfl, rfl, rfl, rfl, rfl, fun R _ => ⟨rfl, rfl⟩, fun target => ⟨rfl, ?_, ?_⟩⟩
  · decide
  · intro fuel hf
    obtain ⟨f, rfl⟩ : ∃ f, fuel = f + 1 := ⟨fuel - 1, by omega⟩
    rfl

/-! ## `countUnique` and the caller's buffer -/

/-- C14: `countUnique` returns with the caller's buffer holding the same
elements in the same order; only the kernel-owned copy is sorted. -/
theorem countUnique_preserves_buffer (B : List Nat) (hlen : B.length < 2 ^ 31) :
    (countUnique B B.length).map Prod.fst = some B := by
  rw [countUnique_eq B hlen]
  rfl

theorem countUnique_preserves_buffer_witness :
    (countUnique [3, 1, 3, 2, 1] [3, 1, 3, 2, 1].length).map Prod.fst = some [3, 1, 3, 2, 1] :=
  countUnique_preserves_buffer [3, 1, 3, 2, 1] (by decide)

/-! ## The index stack stays inside its allocation -/

theorem quickSortIter_spec (B : List Nat) (h2 : 2 ≤ B.length) (hlen : B.length < 2 ^ 31) :
    ∀ k : Nat, ∃ (arr : List Nat) (stack : List Int) (top : Int) (rs : List (Int × Int)),
      quickSortIter B B.length k = some (arr, stack, top) ∧ QSInv B arr rs ∧
        StackRep stack rs top ∧ stack.length = B.length := by
  intro k
  induction k with
  | zero =>
    have hpred : toInt32 (u32Pred B.length) = (B.length : Int) - 1 :=
      toInt32_u32Pred _ (by omega) hlen
    obtain ⟨stack, e, l, rep⟩ :=
      push2_spec (List.replicate B.length (0 : Int)) [] (-1) 0 ((B.length : Int) - 1) rfl
        (by simp only [List.length_nil, List.length_replicate]; omega)
    have hinv : QSInv B B [((0 : Int), (B.length : Int) - 1)] :=
      { len := rfl
        perm := List.Perm.refl _
        bounds := by
          intro r hr
          rw [List.mem_singleton] at hr
          subst hr
          exact ⟨le_refl _, by simp only; omega, by simp only; omega⟩
        disj := List.pairwise_singleton _ _
        ord := fun p q _ hq =>
          Or.inr ⟨_, List.mem_singleton.mpr rfl, by simp only; omega, by simp only; omega⟩
        size := by simp only [rangeSum]; omega }
    refine ⟨B, stack, -1 + 2, _, ?_, hinv, rep, by rw [l, List.length_replicate]⟩
    simp only [quickSortIter, hpred, e, Option.bind_eq_bind, Option.some_bind]
  | succ k ih =>
    obtain ⟨arr, stack, top, rs, he, hinv, hst, hsl⟩ := ih
    cases rs with
    | nil =>
      have ht : top = -1 := hst
      have hneg : ¬ (0 ≤ top) := by omega
      refine ⟨arr, stack, top, [], ?_, hinv, hst, hsl⟩
      simp only [quickSortIter, he, Option.bind_eq_bind, Option.some_bind, hneg, if_false]
    | cons r rest =>
      obtain ⟨lo, hi⟩ := r
      have ht : 0 ≤ top := by have := hst.1; omega
      obtain ⟨arr', stack', top', rs', he', hinv', hst', hsl', _⟩ :=
        quickSortStep_spec hinv hst hsl
      refine ⟨arr', stack', top', rs', ?_, hinv', hst', hsl'⟩
      simp only [quickSortIter, he, Option.bind_eq_bind, Option.some_bind, ht, if_true, he']

/-- C20: for a buffer of length `n` with `2 ≤ n < 2 ^ 31`, after any number
`k` of iterations of the `quickSort` loop the run has not failed (every checked
write `stack[++top]` and every pop hit an index in `0 .. n - 1`), the stack
array still has `n` entries, the top index is at most `n - 1`, and the stack
holds pairwise disjoint ranges of at least two positions, two slots each. -/
theorem quickSort_stack_bounded (B : List Nat) (h2 : 2 ≤ B.length)
    (hlen : B.length < 2 ^ 31) (k : Nat) :
    ∃ (arr : List Nat) (stack : List Int) (top : Int) (rs : List (Int × Int)),
      quickSortIter B B.length k = some (arr, stack, top) ∧ stack.length = B.length ∧
        -1 ≤ top ∧ top < (B.length : Int) ∧ top + 1 = 2 * (rs.length : Int) ∧
        StackRep stack rs top ∧
        (∀ r ∈ rs, 0 ≤ r.1 ∧ r.1 < r.2 ∧ r.2 < (B.length : Int)) ∧
        rs.Pairwise RangeDisjoint := by
  obtain ⟨arr, stack, top, rs, he, hinv, hst, hsl⟩ := quickSortIter_spec B h2 hlen k
  have ht := stackRep_top_eq hst
  have hc : 2 * rs.length ≤ B.length :=
    le_trans (two_mul_length_le_rangeSum _ (fun r hr => (hinv.bounds r hr).2.1)) hinv.size
  exact ⟨arr, stack, top, rs, he, hsl, by omega, by omega, by omega, hst, hinv.bounds,
    hinv.disj⟩

theorem quickSort_stack_bounded_witness :
    quickSortIter [6, 5, 4, 3, 2, 1] 6 2 = some ([1, 5, 4, 3, 2, 6], [1, 4, 0, 0, 0, 0], 1) ∧
      ∃ (arr : List Nat) (stack : List Int) (top : Int) (rs : List (Int × Int)),
        quickSortIter [6, 5, 4, 3, 2, 1] [6, 5, 4, 3, 2, 1].length 2 = some (arr, stack, top) ∧
          stack.length = [6, 5, 4, 3, 2, 1].length ∧
          -1 ≤ top ∧ top < ([6, 5, 4, 3, 2, 1].length : Int) ∧
          top + 1 = 2 * (rs.length : Int) ∧ StackRep stack rs top ∧
          (∀ r ∈ rs, 0 ≤ r.1 ∧ r.1 < r.2 ∧ r.2 < ([6, 5, 4, 3, 2, 1].length : Int)) ∧
          rs.Pairwise RangeDisjoint :=
  ⟨by decide, quickSort_stack_bounded [6, 5, 4, 3, 2, 1] (by decide) (by decide) 2⟩

/-! ## Point transform, scalar kernel -/

theorem getD_set_eq_ite {α : Type} (l : List α) (i j : Nat) (v d : α) :
    (l.set i v).getD j d = if i = j ∧ i < l.length then v else l.getD j d := by
  by_cases h : i = j
  · subst h
    by_cases hi : i < l.length
    · simp [getD_set_self, hi]
    · have : l.set i v = l := List.set_eq_of_length_le (by omega)
      simp [hi, this]
  · simp [getD_set_ne, h]

theorem set_getD_self {α : Type} (l : List α) (d : α) :
    ∀ k : Nat, l.set k (l.getD k d) = l := by
  induction l with
  | nil => intro k; rfl
  | cons a t ih =>
    intro k
    cases k with
    | zero => rfl
    | succ k => simp only [List.set_cons_succ, List.getD_cons_succ, ih k]

theorem length_transformPoint {R : Type} [CommRing R] (matrix vectors : List R) (i : Nat) :
    (transformPoint matrix vectors i).length = vectors.length := by
  simp [transformPoint]

theorem getD_transformPoint {R : Type} [CommRing R] (matrix vectors : List R) (i k : Nat)
    (h : i * 3 + 2 < vectors.length) :
    (transformPoint matrix vectors i).getD k 0 =
      if k / 3 = i then transformedCoord matrix vectors k else vectors.getD k 0 := by
  simp only [transformPoint, getD_set_eq_ite, List.length_set]
  by_cases hk : k / 3 = i
  · subst hk
    rw [if_pos rfl]
    have hr : k % 3 = 0 ∨ k % 3 = 1 ∨ k % 3 = 2 := by omega
    unfold transformedCoord
    rcases hr with e | e | e
    · rw [if_neg (by omega), if_neg (by omega), if_pos (by omega), e]
    · rw [if_neg (by omega), if_pos (by omega), e]
    · rw [if_pos (by omega), e]
  · rw [if_neg hk, if_neg (by omega), if_neg (by omega), if_neg (by omega)]

theorem transformedCoord_congr {R : Type} [CommRing R] (matrix v w : List R) (k : Nat)
    (h : ∀ j, j / 3 = k / 3 → v.getD j 0 = w.getD j 0) :
    transformedCoord matrix v k = transformedCoord matrix w k := by
  unfold transformedCoord
  rw [h (k / 3 * 3 + 0) (by omega), h (k / 3 * 3 + 1) (by omega), h (k / 3 * 3 + 2) (by omega)]

theorem transformLoop_spec {R : Type} [CommRing R] (matrix : List R) (n : Nat) :
    ∀ (i : Nat) (vectors : List R), (i + n) * 3 ≤ vectors.length →
      (transformLoop matrix n i vectors).length = vectors.length ∧
        ∀ k : Nat, (transformLoop matrix n i vectors).getD k 0 =
          if i ≤ k / 3 ∧ k / 3 < i + n then transformedCoord matrix vectors k
          else vectors.getD k 0 := by
  induction n with
  | zero =>
    intro i vectors _
    refine ⟨rfl, fun k => ?_⟩
    rw [transformLoop, if_neg (by omega)]
  | succ n ih =>
    intro i vectors hlen
    have hi : i * 3 + 2 < vectors.length := by omega
    obtain ⟨h1, h2⟩ := ih (i + 1) (transformPoint matrix vectors i)
      (by rw [length_transformPoint]; omega)
    refine ⟨by rw [transformLoop, h1, length_transformPoint], fun k => ?_⟩
    rw [transformLoop, h2 k]
    by_cases c1 : i + 1 ≤ k / 3 ∧ k / 3 < i + 1 + n
    · rw [if_pos c1, if_pos (by omega)]
      apply transformedCoord_congr
      intro j hj
      rw [getD_transformPoint matrix vectors i j hi, if_neg (by omega)]
    · rw [if_neg c1, getD_transformPoint matrix vectors i k hi]
      by_cases c2 : k / 3 = i
      · rw [if_pos c2, if_pos (by omega)]
      · rw [if_neg c2, if_neg (by omega)]

/-- C15: in exact arithmetic, on a buffer holding at least `n` points,
`transformVectors` keeps the buffer length and replaces each point `i < n`,
with old coordinates `(x, y, z)`, by
`(M[0]x + M[4]y + M[8]z + M[12], M[1]x + M[5]y + M[9]z + M[13],
M[2]x + M[6]y + M[10]z + M[14])`, all three from the old coordinates; the
entries at index `3n` and beyond are unchanged. -/
theorem transformVectors_spec {R : Type} [CommRing R] (V M : List R) (n : Nat)
    (hlen : n * 3 ≤ V.length) :
    (transformVectors V M n).length = V.length ∧
      (∀ i : Nat, i < n →
        (transformVectors V M n).getD (i * 3 + 0) 0 =
            M.getD 0 0 * V.getD (i * 3 + 0) 0 + M.getD 4 0 * V.getD (i * 3 + 1) 0 +
              M.getD 8 0 * V.getD (i * 3 + 2) 0 + M.getD 12 0 ∧
          (transformVectors V M n).getD (i * 3 + 1) 0 =
            M.getD 1 0 * V.getD (i * 3 + 0) 0 + M.getD 5 0 * V.getD (i * 3 + 1) 0 +
              M.getD 9 0 * V.getD (i * 3 + 2) 0 + M.getD 13 0 ∧
          (transformVectors V M n).getD (i * 3 + 2) 0 =
            M.getD 2 0 * V.getD (i * 3 + 0) 0 + M.getD 6 0 * V.getD (i * 3 + 1) 0 +
              M.getD 10 0 * V.getD (i * 3 + 2) 0 + M.getD 14 0) ∧
      (∀ k : Nat, n * 3 ≤ k → (transformVectors V M n).getD k 0 = V.getD k 0) := by
  obtain ⟨h1, h2⟩ := transformLoop_spec M n 0 V (by omega)
  unfold transformVectors
  refine ⟨h1, fun i hi => ⟨?_, ?_, ?_⟩, fun k hk => ?_⟩
  · rw [h2, if_pos (by omega)]
    unfold transformedCoord
    have e1 : (i * 3 + 0) % 3 = 0 := by omega
    have e2 : (i * 3 + 0) / 3 = i := by omega
    rw [e1, e2]
  · rw [h2, if_pos (by omega)]
    unfold transformedCoord
    have e1 : (i * 3 + 1) % 3 = 1 := by omega
    have e2 : (i * 3 + 1) / 3 = i := by omega
    rw [e1, e2]
  · rw [h2, if_pos (by omega)]
    unfold transformedCoord
    have e1 : (i * 3 + 2) % 3 = 2 := by omega
    have e2 : (i * 3 + 2) / 3 = i := by omega
    rw [e1, e2]
  · rw [h2, if_neg (by omega)]

theorem transformVectors_spec_witness :
    transformVectors ([1, 2, 3, 4, 5, 6, 7] : List Int)
        [2, 0, 0, 0, 0, 3, 0, 0, 0, 0, 4, 0, 1, 1, 1, 1] 2 = [3, 7, 13, 9, 16, 25, 7] ∧
      ((transformVectors ([1, 2, 3, 4, 5, 6, 7] : List Int) [2, 0, 0, 0, 0, 3, 0, 0, 0, 0, 4, 0, 1, 1, 1, 1] 2).length = ([1, 2, 3, 4, 5, 6, 7] : List Int).length ∧
        (∀ i : Nat, i < 2 →
          (transformVectors ([1, 2, 3, 4, 5, 6, 7] : List Int) [2, 0, 0, 0, 0, 3, 0, 0, 0, 0, 4, 0, 1, 1, 1, 1] 2).getD (i * 3 + 0) 0 =
            List.getD [2, 0, 0, 0, 0, 3, 0, 0, 0, 0, 4, 0, 1, 1, 1, 1] 0 0 * ([1, 2, 3, 4, 5, 6, 7] : List Int).getD (i * 3 + 0) 0 +
              List.getD [2, 0, 0, 0, 0, 3, 0, 0, 0, 0, 4, 0, 1, 1, 1, 1] 4 0 * ([1, 2, 3, 4, 5, 6, 7] : List Int).getD (i * 3 + 1) 0 +
              List.getD [2, 0, 0, 0, 0, 3, 0, 0, 0, 0, 4, 0, 1, 1, 1, 1] 8 0 * ([1, 2, 3, 4, 5, 6, 7] : List Int).getD (i * 3 + 2) 0 + List.getD [2, 0, 0, 0, 0, 3, 0, 0, 0, 0, 4, 0, 1, 1, 1, 1] 12 0 ∧
          (transformVectors ([1, 2, 3, 4, 5, 6, 7] : List Int) [2, 0, 0, 0, 0, 3, 0, 0, 0, 0, 4, 0, 1, 1, 1, 1] 2).getD (i * 3 + 1) 0 =
            List.getD [2, 0, 0, 0, 0, 3, 0, 0, 0, 0, 4, 0, 1, 1, 1, 1] 1 0 * ([1, 2, 3, 4, 5, 6, 7] : List Int).getD (i * 3 + 0) 0 +
              List.getD [2, 0, 0, 0, 0, 3, 0, 0, 0, 0, 4, 0, 1, 1, 1, 1] 5 0 * ([1, 2, 3, 4, 5, 6, 7] : List Int).getD (i * 3 + 1) 0 +
              List.getD [2, 0, 0, 0, 0, 3, 0, 0, 0, 0, 4, 0, 1, 1, 1, 1] 9 0 * ([1, 2, 3, 4, 5, 6, 7] : List Int).getD (i * 3 + 2) 0 + List.getD [2, 0, 0, 0, 0, 3, 0, 0, 0, 0, 4, 0, 1, 1, 1, 1] 13 0 ∧
          (transformVectors ([1, 2, 3, 4, 5, 6, 7] : List Int) [2, 0, 0, 0, 0, 3, 0, 0, 0, 0, 4, 0, 1, 1, 1, 1] 2).getD (i * 3 + 2) 0 =
            List.getD [2, 0, 0, 0, 0, 3, 0, 0, 0, 0, 4, 0, 1, 1, 1, 1] 2 0 * ([1, 2, 3, 4, 5, 6, 7] : List Int).getD (i * 3 + 0) 0 +
              List.getD [2, 0, 0, 0, 0, 3, 0, 0, 0, 0, 4, 0, 1, 1, 1, 1] 6 0 * ([1, 2, 3, 4, 5, 6, 7] : List Int).getD (i * 3 + 1) 0 +
              List.getD [2, 0, 0, 0, 0, 3, 0, 0, 0, 0, 4, 0, 1, 1, 1, 1] 10 0 * ([1, 2, 3, 4, 5, 6, 7] : List Int).getD (i * 3 + 2) 0 + List.getD [2, 0, 0, 0, 0, 3, 0, 0, 0, 0, 4, 0, 1, 1, 1, 1] 14 0) ∧
        (∀ k : Nat, 2 * 3 ≤ k → (transformVectors ([1, 2, 3, 4, 5, 6, 7] : List Int) [2, 0, 0, 0, 0, 3, 0, 0, 0, 0, 4, 0, 1, 1, 1, 1] 2).getD k 0 = ([1, 2, 3, 4, 5, 6, 7] : List Int).getD k 0)) :=
  ⟨by decide, transformVectors_spec ([1, 2, 3, 4, 5, 6, 7] : List Int) [2, 0, 0, 0, 0, 3, 0, 0, 0, 0, 4, 0, 1, 1, 1, 1] 2 (by decide)⟩

/-! ## Point transform, vector kernel -/

theorem transformLoop_add {R : Type} [CommRing R] (matrix : List R) (a b : Nat) :
    ∀ (i : Nat) (vectors : List R),
      transformLoop matrix (a + b) i vectors =
        transformLoop matrix b (i + a) (transformLoop matrix a i vectors) := by
  induction a with
  | zero => intro i vectors; simp [transformLoop]
  | succ a ih =>
    intro i vectors
    have e : a + 1 + b = (a + b) + 1 := by omega
    rw [e, transformLoop, ih, transformLoop]
    congr 1
    omega

theorem madd_assoc {R : Type} [CommRing R] (a b c d x y z : R) :
    x * a + y * b + (z * c + d) = a * x + b * y + c * z + d := by
  ring

theorem transformBlock_eq {R : Type} [CommRing R] (matrix vectors : List R) (i : Nat) :
    transformBlock (splatMatrix matrix) vectors i = transformLoop matrix 4 i vectors := by
  simp (disch := omega) only [transformBlock, transformLoop, transformPoint, splatMatrix,
    wasm_f32x4_add, wasm_f32x4_mul, wasm_f32x4_splat, getD_set_ne, madd_assoc,
    Nat.add_assoc, Nat.reduceAdd]

theorem transformSIMDVecLoop_eq {R : Type} [CommRing R] (matrix : List R) (n : Nat) :
    ∀ (i : Nat) (vectors : List R),
      transformSIMDVecLoop (splatMatrix matrix) n i vectors =
        (i + 4 * n, transformLoop matrix (4 * n) i vectors) := by
  induction n with
  | zero => intro i vectors; simp [transformSIMDVecLoop, transformLoop]
  | succ n ih =>
    intro i vectors
    have e : 4 * (n + 1) = 4 + 4 * n := by omega
    rw [transformSIMDVecLoop, ih, transformBlock_eq, e, transformLoop_add]
    congr 1
    omega

/-- C16: in exact arithmetic `transformVectorsSIMD` leaves the same buffer as
`transformVectors`, for every point buffer, matrix and count (also counts
below 4 and counts that are not multiples of 4): the two differ only in how
the four summands are associated. -/
theorem transformVectorsSIMD_agree {R : Type} [CommRing R] (V M : List R) (n : Nat) :
    transformVectorsSIMD V M n = transformVectors V M n := by
  have e : n = 4 * (n / 4) + (n - 4 * (n / 4)) := by omega
  simp only [transformVectorsSIMD, transformVectors, transformSIMDVecLoop_eq, Nat.zero_add]
  conv_rhs => rw [e, transformLoop_add, Nat.zero_add]

/-! ## Identity matrix -/

theorem transformPoint_identity {R : Type} [CommRing R] (vectors : List R) (i : Nat) :
    transformPoint identityMatrix vectors i = vectors := by
  have m0 : (identityMatrix : List R).getD 0 0 = 1 := rfl
  have m1 : (identityMatrix : List R).getD 1 0 = 0 := rfl
  have m2 : (identityMatrix : List R).getD 2 0 = 0 := rfl
  have m4 : (identityMatrix : List R).getD 4 0 = 0 := rfl
  have m5 : (identityMatrix : List R).getD 5 0 = 1 := rfl
  have m6 : (identityMatrix : List R).getD 6 0 = 0 := rfl
  have m8 : (identityMatrix : List R).getD 8 0 = 0 := rfl
  have m9 : (identityMatrix : List R).getD 9 0 = 0 := rfl
  have m10 : (identityMatrix : List R).getD 10 0 = 1 := rfl
  have m12 : (identityMatrix : List R).getD 12 0 = 0 := rfl
  have m13 : (identityMatrix : List R).getD 13 0 = 0 := rfl
  have m14 : (identityMatrix : List R).getD 14 0 = 0 := rfl
  simp only [transformPoint, m0, m1, m2, m4, m5, m6, m8, m9, m10, m12, m13, m14, one_mul,
    zero_mul, add_zero, zero_add, set_getD_self]

theorem transformLoop_identity {R : Type} [CommRing R] (n : Nat) :
    ∀ (i : Nat) (vectors : List R), transformLoop identityMatrix n i vectors = vectors := by
  induction n with
  | zero => intro i vectors; rfl
  | succ n ih => intro i vectors; rw [transformLoop, transformPoint_identity, ih]

/-- In exact arithmetic (a commutative ring), `transformVectors` with the
identity matrix leaves every coordinate of every point as it was, for every
point buffer and count. -/
theorem transformVectors_identity {R : Type} [CommRing R] (V : List R) (n : Nat) :
    transformVectors V identityMatrix n = V :=
  transformLoop_identity n 0 V

/-! ## Matrix builder -/

theorem exists_of_length_sixteen {R : Type} (l : List R) (h : l.length = 16) :
    ∃ a0 a1 a2 a3 a4 a5 a6 a7 a8 a9 a10 a11 a12 a13 a14 a15 : R,
      l = [a0, a1, a2, a3, a4, a5, a6, a7, a8, a9, a10, a11, a12, a13, a14, a15] := by
  rcases l with _ | ⟨a0, l⟩
  · simp at h
  rcases l with _ | ⟨a1, l⟩
  · simp at h
  rcases l with _ | ⟨a2, l⟩
  · simp at h
  rcases l with _ | ⟨a3, l⟩
  · simp at h
  rcases l with _ | ⟨a4, l⟩
  · simp at h
  rcases l with _ | ⟨a5, l⟩
  · simp at h
  rcases l with _ | ⟨a6, l⟩
  · simp at h
  rcases l with _ | ⟨a7, l⟩
  · simp at h
  rcases l with _ | ⟨a8, l⟩
  · simp at h
  rcases l with _ | ⟨a9, l⟩
  · simp at h
  rcases l with _ | ⟨a10, l⟩
  · simp at h
  rcases l with _ | ⟨a11, l⟩
  · simp at h
  rcases l with _ | ⟨a12, l⟩
  · simp at h
  rcases l with _ | ⟨a13, l⟩
  · simp at h
  rcases l with _ | ⟨a14, l⟩
  · simp at h
  rcases l with _ | ⟨a15, l⟩
  · simp at h
  rcases l with _ | ⟨b, l⟩
  · exact ⟨a0, a1, a2, a3, a4, a5, a6, a7, a8, a9, a10, a11, a12, a13, a14, a15, rfl⟩
  · simp at h

theorem createTransformMatrix_eq {R : Type} [Field R] (cosF sinF : R → R) (matrix : List R)
    (sx sy sz deg tx ty tz : R) (h : matrix.length = 16) :
    createTransformMatrix cosF sinF matrix sx sy sz deg tx ty tz =
      [sx * cosF (angleRad deg), sx * sinF (angleRad deg), 0, 0,
       -sy * sinF (angleRad deg), sy * cosF (angleRad deg), 0, 0,
       0, 0, sz, 0,
       tx, ty, tz, 1] := by
  obtain ⟨a0, a1, a2, a3, a4, a5, a6, a7, a8, a9, a10, a11, a12, a13, a14, a15, rfl⟩ :=
    exists_of_length_sixteen matrix h
  simp only [createTransformMatrix, List.set_cons_zero, List.set_cons_succ, neg_mul, mul_neg]

theorem fin4_val_zero : ((0 : Fin 4) : ℕ) = 0 := rfl

theorem fin4_val_one : ((1 : Fin 4) : ℕ) = 1 := rfl

theorem fin4_val_two : ((2 : Fin 4) : ℕ) = 2 := rfl

theorem fin4_val_three : ((3 : Fin 4) : ℕ) = 3 := rfl

theorem matrixOf_translate_rotate_scale {R : Type} [CommRing R] (c s sx sy sz tx ty tz : R) :
    matrixOf [sx * c, sx * s, 0, 0, -sy * s, sy * c, 0, 0, 0, 0, sz, 0, tx, ty, tz, 1] =
      translateMatrix tx ty tz * rotateZMatrix c s * scaleMatrix sx sy sz := by
  ext i j
  simp only [Matrix.mul_apply, Fin.sum_univ_four, matrixOf, Matrix.of_apply, translateMatrix,
    rotateZMatrix, scaleMatrix]
  fin_cases i <;> fin_cases j <;>
    simp only [Fin.zero_eta, Fin.mk_one, Fin.reduceFinMk, Fin.isValue, fin4_val_zero,
      fin4_val_one, fin4_val_two, fin4_val_three, Nat.reduceMul, Nat.reduceAdd,
      List.getD_cons_zero, List.getD_cons_succ] <;> ring

theorem matrixOf_createTransformMatrix {R : Type} [Field R] (cosF sinF : R → R)
    (matrix : List R) (sx sy sz deg tx ty tz : R) (h : matrix.length = 16) :
    matrixOf (createTransformMatrix cosF sinF matrix sx sy sz deg tx ty tz) =
      translateMatrix tx ty tz *
        rotateZMatrix (cosF (angleRad deg)) (sinF (angleRad deg)) * scaleMatrix sx sy sz := by
  rw [createTransformMatrix_eq cosF sinF matrix sx sy sz deg tx ty tz h]
  exact matrixOf_translate_rotate_scale _ _ _ _ _ _ _ _

theorem transform_createTransformMatrix {R : Type} [Field R] (cosF sinF : R → R)
    (matrix : List R) (sx sy sz deg tx ty tz x y z : R) (h : matrix.length = 16) :
    transformVectors [x, y, z]
        (createTransformMatrix cosF sinF matrix sx sy sz deg tx ty tz) 1 =
      [(translatePoint tx ty tz (rotateZPoint (cosF (angleRad deg)) (sinF (angleRad deg))
          (scalePoint sx sy sz (x, y, z)))).1,
       (translatePoint tx ty tz (rotateZPoint (cosF (angleRad deg)) (sinF (angleRad deg))
          (scalePoint sx sy sz (x, y, z)))).2.1,
       (translatePoint tx ty tz (rotateZPoint (cosF (angleRad deg)) (sinF (angleRad deg))
          (scalePoint sx sy sz (x, y, z)))).2.2] := by
  rw [createTransformMatrix_eq cosF sinF matrix sx sy sz deg tx ty tz h]
  simp only [transformVectors, transformLoop, transformPoint, translatePoint, rotateZPoint,
    scalePoint, List.getD_cons_zero, List.getD_cons_succ, List.set_cons_zero,
    List.set_cons_succ, Nat.zero_mul, Nat.zero_add, Nat.reduceAdd]
  congr 1
  · ring
  congr 1
  · ring
  congr 1
  ring

theorem angleRad_zero {R : Type} [Field R] : angleRad (0 : R) = 0 := by
  simp [angleRad]

/-- C19, the claim as stated fails: with scale 2, angle 0 and translation
`(5, 0, 0)` the matrix written is not the product `S * R * T` (entry row 0,
column 3 is `5`, not `10`), and the point `(1, 0, 0)` is sent to `(7, 0, 0)`,
not to `Scale(RotateZ(Translate(p))) = (12, 0, 0)`. -/
theorem createTransformMatrix_not_scale_rotate_translate :
    matrixOf (createTransformMatrix Real.cos Real.sin (List.replicate 16 (0 : ℝ))
        2 2 2 0 5 0 0) ≠
      scaleMatrix 2 2 2 * rotateZMatrix (Real.cos (angleRad 0)) (Real.sin (angleRad 0)) *
        translateMatrix 5 0 0 ∧
    transformVectors [1, 0, 0]
        (createTransformMatrix Real.cos Real.sin (List.replicate 16 (0 : ℝ)) 2 2 2 0 5 0 0) 1 ≠
      [(scalePoint 2 2 2 (rotateZPoint (Real.cos (angleRad 0)) (Real.sin (angleRad 0))
          (translatePoint 5 0 0 ((1 : ℝ), (0 : ℝ), (0 : ℝ))))).1,
       (scalePoint 2 2 2 (rotateZPoint (Real.cos (angleRad 0)) (Real.sin (angleRad 0))
          (translatePoint 5 0 0 ((1 : ℝ), (0 : ℝ), (0 : ℝ))))).2.1,
       (scalePoint 2 2 2 (rotateZPoint (Real.cos (angleRad 0)) (Real.sin (angleRad 0))
          (translatePoint 5 0 0 ((1 : ℝ), (0 : ℝ), (0 : ℝ))))).2.2] := by
  constructor
  · rw [createTransformMatrix_eq Real.cos Real.sin _ 2 2 2 0 5 0 0 (by decide)]
    intro h
    have h03 := congrFun (congrFun h 0) 3
    simp only [Matrix.mul_apply, Fin.sum_univ_four, matrixOf, Matrix.of_apply, translateMatrix,
      rotateZMatrix, scaleMatrix, Fin.isValue, fin4_val_zero, fin4_val_one, fin4_val_two,
      fin4_val_three, Nat.reduceMul, Nat.reduceAdd, List.getD_cons_zero, List.getD_cons_succ,
      angleRad_zero, Real.cos_zero, Real.sin_zero] at h03
    norm_num at h03
  · rw [transform_createTransformMatrix Real.cos Real.sin _ 2 2 2 0 5 0 0 1 0 0 (by decide)]
    simp only [translatePoint, rotateZPoint, scalePoint, angleRad_zero, Real.cos_zero,
      Real.sin_zero]
    intro h
    have h0 := (List.cons.inj h).1
    norm_num at h0

/-- C19, amended: in exact arithmetic the matrix written by
`createTransformMatrix` is the product `T * R * S` of the translation by
`(tx, ty, tz)`, the Z-rotation by `theta` and the scale `diag(sx, sy, sz, 1)`,
i.e. the composite Translate after RotateZ after Scale: applying it with
`transformVectors` to a point `p` gives `Translate(RotateZ(Scale(p)))`. -/
theorem createTransformMatrix_translate_rotate_scale {R : Type} [Field R]
    (cosF sinF : R → R) (matrix : List R) (sx sy sz deg tx ty tz : R)
    (h : matrix.length = 16) :
    matrixOf (createTransformMatrix cosF sinF matrix sx sy sz deg tx ty tz) =
        translateMatrix tx ty tz *
          rotateZMatrix (cosF (angleRad deg)) (sinF (angleRad deg)) * scaleMatrix sx sy sz ∧
      ∀ x y z : R,
        transformVectors [x, y, z]
            (createTransformMatrix cosF sinF matrix sx sy sz deg tx ty tz) 1 =
          [(translatePoint tx ty tz (rotateZPoint (cosF (angleRad deg)) (sinF (angleRad deg))
              (scalePoint sx sy sz (x, y, z)))).1,
           (translatePoint tx ty tz (rotateZPoint (cosF (angleRad deg)) (sinF (angleRad deg))
              (scalePoint sx sy sz (x, y, z)))).2.1,
           (translatePoint tx ty tz (rotateZPoint (cosF (angleRad deg)) (sinF (angleRad deg))
              (scalePoint sx sy sz (x, y, z)))).2.2] :=
  ⟨matrixOf_createTransformMatrix cosF sinF matrix sx sy sz deg tx ty tz h,
    fun x y z => transform_createTransformMatrix cosF sinF matrix sx sy sz deg tx ty tz x y z h⟩

theorem createTransformMatrix_translate_rotate_scale_witness :
    transformVectors [1, 0, 0]
        (createTransformMatrix Real.cos Real.sin (List.replicate 16 (0 : ℝ)) 1 1 1 0 5 0 0) 1 =
      [6, 0, 0] ∧
    (matrixOf (createTransformMatrix Real.cos Real.sin (List.replicate 16 (0 : ℝ))
          1 1 1 0 5 0 0) =
        translateMatrix 5 0 0 *
          rotateZMatrix (Real.cos (angleRad 0)) (Real.sin (angleRad 0)) * scaleMatrix 1 1 1 ∧
      ∀ x y z : ℝ,
        transformVectors [x, y, z]
            (createTransformMatrix Real.cos Real.sin (List.replicate 16 (0 : ℝ))
              1 1 1 0 5 0 0) 1 =
          [(translatePoint 5 0 0 (rotateZPoint (Real.cos (angleRad 0)) (Real.sin (angleRad 0))
              (scalePoint 1 1 1 (x, y, z)))).1,
           (translatePoint 5 0 0 (rotateZPoint (Real.cos (angleRad 0)) (Real.sin (angleRad 0))
              (scalePoint 1 1 1 (x, y, z)))).2.1,
           (translatePoint 5 0 0 (rotateZPoint (Real.cos (angleRad 0)) (Real.sin (angleRad 0))
              (scalePoint 1 1 1 (x, y, z)))).2.2]) := by
  have hw := createTransformMatrix_translate_rotate_scale Real.cos Real.sin
    (List.replicate 16 (0 : ℝ)) 1 1 1 0 5 0 0 (by decide)
  refine ⟨?_, hw⟩
  rw [hw.2 1 0 0]
  simp only [translatePoint, rotateZPoint, scalePoint, angleRad_zero, Real.cos_zero,
    Real.sin_zero]
  norm_num

/-! ## The vector sum modulo `2 ^ 32` -/

theorem sumArrayLoop_idxSum (arr : List Nat) (n : Nat) :
    ∀ (i sum : Nat), sum < 2 ^ 64 →
      sumArrayLoop arr n i sum = (sum + idxSum arr n i) % 2 ^ 64 := by
  induction n with
  | zero =>
    intro i sum h
    simp only [sumArrayLoop, idxSum, Nat.add_zero]
    omega
  | succ n ih =>
    intro i sum _
    rw [sumArrayLoop, ih (i + 1) _ (Nat.mod_lt _ (by norm_num)), idxSum]
    omega

theorem idxSum_add (arr : List Nat) (a b : Nat) :
    ∀ i : Nat, idxSum arr (a + b) i = idxSum arr a i + idxSum arr b (i + a) := by
  induction a with
  | zero => intro i; simp [idxSum]
  | succ a ih =>
    intro i
    have e : a + 1 + b = (a + b) + 1 := by omega
    have e2 : i + 1 + a = i + (a + 1) := by omega
    rw [e, idxSum, ih, idxSum, e2]
    omega

theorem idxSum_lanes (arr : List Nat) (n : Nat) :
    ∀ i : Nat, idxSum arr (4 * n) i =
      laneSumFrom arr 0 n i + laneSumFrom arr 1 n i + laneSumFrom arr 2 n i +
        laneSumFrom arr 3 n i := by
  induction n with
  | zero => intro i; simp [idxSum, laneSumFrom]
  | succ n ih =>
    intro i
    have e : 4 * (n + 1) = 4 + 4 * n := by omega
    rw [e, idxSum_add, ih (i + 4)]
    simp only [idxSum, laneSumFrom, Nat.add_zero, Nat.add_assoc, Nat.reduceAdd]
    omega

theorem idxSum_append (rest : List Nat) :
    ∀ pre : List Nat, idxSum (pre ++ rest) rest.length pre.length = rest.sum := by
  induction rest with
  | nil => intro pre; simp [idxSum]
  | cons x xs ih =>
    intro pre
    have h := ih (pre ++ [x])
    simp only [List.append_assoc, List.singleton_append, List.length_append,
      List.length_singleton] at h
    simp only [List.length_cons, idxSum, getD_append_length, h, List.sum_cons]

theorem sumSIMDVecLoop_lanes (arr : List Nat) (n : Nat) :
    ∀ (i : Nat) (v : V128),
      sumSIMDVecLoop arr n i (wasm_i32x4_add v (wasm_i32x4_splat 0)) =
        (i + 4 * n,
          ⟨(v.l0 + laneSumFrom arr 0 n i) % 2 ^ 32, (v.l1 + laneSumFrom arr 1 n i) % 2 ^ 32,
           (v.l2 + laneSumFrom arr 2 n i) % 2 ^ 32, (v.l3 + laneSumFrom arr 3 n i) % 2 ^ 32⟩) := by
  induction n with
  | zero =>
    intro i v
    simp [sumSIMDVecLoop, wasm_i32x4_add, wasm_i32x4_splat, laneSumFrom]
  | succ n ih =>
    intro i v
    have hstep : wasm_i32x4_add (wasm_i32x4_add v (wasm_i32x4_splat 0)) (wasm_v128_load arr i) =
        wasm_i32x4_add
          ⟨v.l0 + arr.getD (i + 0) 0, v.l1 + arr.getD (i + 1) 0, v.l2 + arr.getD (i + 2) 0,
            v.l3 + arr.getD (i + 3) 0⟩ (wasm_i32x4_splat 0) := by
      simp only [wasm_i32x4_add, wasm_i32x4_splat, wasm_v128_load, Nat.add_zero, V128.mk.injEq]
      omega
    rw [sumSIMDVecLoop, hstep, ih]
    simp only [laneSumFrom, Prod.mk.injEq, V128.mk.injEq]
    omega

theorem sumArraySIMD_formula (arr : List Nat) (length : Nat) :
    sumArraySIMD arr length =
      ((laneSum arr length 0 % 2 ^ 32 + laneSum arr length 1 % 2 ^ 32 +
          laneSum arr length 2 % 2 ^ 32 + laneSum arr length 3 % 2 ^ 32) +
        idxSum arr (length - 4 * (length / 4)) (4 * (length / 4))) % 2 ^ 64 := by
  have h0 : wasm_i32x4_splat 0 = wasm_i32x4_add (wasm_i32x4_splat 0) (wasm_i32x4_splat 0) := by
    simp [wasm_i32x4_add, wasm_i32x4_splat]
  unfold sumArraySIMD
  rw [h0, sumSIMDVecLoop_lanes]
  simp only [Nat.zero_add, lanesOf, wasm_i32x4_splat, laneSum]
  rw [sumArrayLoop_idxSum _ 4 0 0 (by norm_num)]
  simp only [idxSum, List.getD_cons_zero, List.getD_cons_succ, Nat.zero_add, Nat.add_zero]
  rw [sumArrayLoop_idxSum _ _ _ _ (Nat.mod_lt _ (by norm_num))]
  omega

theorem sumArray_formula (arr : List Nat) (length : Nat) :
    sumArray arr length =
      ((laneSum arr length 0 + laneSum arr length 1 + laneSum arr length 2 +
          laneSum arr length 3) +
        idxSum arr (length - 4 * (length / 4)) (4 * (length / 4))) % 2 ^ 64 := by
  have e : length = 4 * (length / 4) + (length - 4 * (length / 4)) := by omega
  unfold sumArray laneSum
  rw [sumArrayLoop_idxSum _ _ _ _ (by norm_num), Nat.zero_add]
  conv_lhs => rw [e, idxSum_add, idxSum_lanes, Nat.zero_add]

theorem sumArraySIMD_congr (arr : List Nat) (length : Nat) :
    sumArraySIMD arr length % 2 ^ 32 = sumArray arr length % 2 ^ 32 := by
  rw [sumArraySIMD_formula, sumArray_formula]
  omega

theorem sumArraySIMD_eq_of_lanes (arr : List Nat) (length : Nat)
    (h : ∀ j : Nat, j < 4 → laneSum arr length j < 2 ^ 32) :
    sumArraySIMD arr length = sumArray arr length := by
  have h0 := h 0 (by norm_num)
  have h1 := h 1 (by norm_num)
  have h2 := h 2 (by norm_num)
  have h3 := h 3 (by norm_num)
  rw [sumArraySIMD_formula, sumArray_formula, Nat.mod_eq_of_lt h0, Nat.mod_eq_of_lt h1,
    Nat.mod_eq_of_lt h2, Nat.mod_eq_of_lt h3]

/-- C21: for every `uint32_t` buffer whose length fits in `uint32_t`,
`sumArraySIMD` is congruent to `sumArray` modulo `2 ^ 32`; the two are equal
whenever none of the four lane partial sums reaches `2 ^ 32`, in particular
whenever `sumArray` is below `2 ^ 32`. -/
theorem sumArraySIMD_mod (B : List Nat) (hB : IsU32Buf B) (hlen : B.length < 2 ^ 32) :
    sumArraySIMD B B.length % 2 ^ 32 = sumArray B B.length % 2 ^ 32 ∧
      ((∀ j : Nat, j < 4 → laneSum B B.length j < 2 ^ 32) →
        sumArraySIMD B B.length = sumArray B B.length) ∧
      (sumArray B B.length < 2 ^ 32 → sumArraySIMD B B.length = sumArray B B.length) := by
  refine ⟨sumArraySIMD_congr B B.length, sumArraySIMD_eq_of_lanes B B.length, fun hs => ?_⟩
  apply sumArraySIMD_eq_of_lanes
  have h1 := sum_le_of_isU32Buf B hB
  have h2 : B.length * (2 ^ 32 - 1) ≤ (2 ^ 32 - 1) * (2 ^ 32 - 1) :=
    Nat.mul_le_mul_right _ (by omega)
  have h3 : idxSum B B.length 0 = B.sum := by simpa using idxSum_append B []
  have e : B.length = 4 * (B.length / 4) + (B.length - 4 * (B.length / 4)) := by omega
  have h4 : idxSum B B.length 0 =
      (laneSum B B.length 0 + laneSum B B.length 1 + laneSum B B.length 2 +
          laneSum B B.length 3) +
        idxSum B (B.length - 4 * (B.length / 4)) (4 * (B.length / 4)) := by
    unfold laneSum
    conv_lhs => rw [e, idxSum_add, idxSum_lanes, Nat.zero_add]
  have h5 : sumArray B B.length = B.sum := by
    rw [sumArray_eq_mod]
    exact Nat.mod_eq_of_lt (by omega)
  intro j hj
  have hj' : j = 0 ∨ j = 1 ∨ j = 2 ∨ j = 3 := by omega
  rcases hj' with rfl | rfl | rfl | rfl <;> omega

theorem sumArraySIMD_mod_witness :
    sumArraySIMD [4294967295, 0, 0, 0, 1, 0, 0, 0, 7] 9 = 7 ∧
      sumArray [4294967295, 0, 0, 0, 1, 0, 0, 0, 7] 9 = 4294967303 ∧
      (sumArraySIMD [4294967295, 0, 0, 0, 1, 0, 0, 0, 7]
            [4294967295, 0, 0, 0, 1, 0, 0, 0, 7].length % 2 ^ 32 =
          sumArray [4294967295, 0, 0, 0, 1, 0, 0, 0, 7]
            [4294967295, 0, 0, 0, 1, 0, 0, 0, 7].length % 2 ^ 32 ∧
        ((∀ j : Nat, j < 4 →
            laneSum [4294967295, 0, 0, 0, 1, 0, 0, 0, 7]
              [4294967295, 0, 0, 0, 1, 0, 0, 0, 7].length j < 2 ^ 32) →
          sumArraySIMD [4294967295, 0, 0, 0, 1, 0, 0, 0, 7]
              [4294967295, 0, 0, 0, 1, 0, 0, 0, 7].length =
            sumArray [4294967295, 0, 0, 0, 1, 0, 0, 0, 7]
              [4294967295, 0, 0, 0, 1, 0, 0, 0, 7].length) ∧
        (sumArray [4294967295, 0, 0, 0, 1, 0, 0, 0, 7]
              [4294967295, 0, 0, 0, 1, 0, 0, 0, 7].length < 2 ^ 32 →
          sumArraySIMD [4294967295, 0, 0, 0, 1, 0, 0, 0, 7]
              [4294967295, 0, 0, 0, 1, 0, 0, 0, 7].length =
            sumArray [4294967295, 0, 0, 0, 1, 0, 0, 0, 7]
              [4294967295, 0, 0, 0, 1, 0, 0, 0, 7].length)) :=
  ⟨by decide, by decide,
    sumArraySIMD_mod [4294967295, 0, 0, 0, 1, 0, 0, 0, 7] (by decide) (by decide)⟩

/-! ## Binary search on an arbitrary buffer -/

theorem readAt_some_bounds {α : Type} (a : List α) (i : Int) (v : α)
    (h : readAt a i = some v) : 0 ≤ i ∧ i.toNat < a.length := by
  unfold readAt at h
  by_cases h0 : 0 ≤ i
  · rw [if_pos h0] at h
    exact ⟨h0, (List.getElem?_eq_some_iff.mp h).1⟩
  · rw [if_neg h0] at h
    exact absurd h (by simp)

theorem binarySearchLoop_safe (arr : List Nat) (target : Nat) :
    ∀ (fuel : Nat) (left right : Int), 0 ≤ left → right < arr.length →
      (right - left + 1).toNat < fuel →
      ∃ r : Int, binarySearchLoop arr target fuel left right = some r ∧
        (r = -1 ∨ (0 ≤ r ∧ r.toNat < arr.length ∧ arr.getD r.toNat 0 = target)) := by
  intro fuel
  induction fuel with
  | zero => intro left right _ _ hf; omega
  | succ fuel ih =>
    intro left right hl hr hf
    rw [binarySearchLoop]
    by_cases hlr : left ≤ right
    · have hd : (right - left).tdiv 2 = (right - left) / 2 :=
        Int.tdiv_eq_ediv (by omega) (by omega)
      have hm0 : 0 ≤ left + (right - left).tdiv 2 := by rw [hd]; omega
      have hm1 : left ≤ left + (right - left).tdiv 2 := by rw [hd]; omega
      have hm2 : left + (right - left).tdiv 2 ≤ right := by rw [hd]; omega
      generalize left + (right - left).tdiv 2 = mid at hm0 hm1 hm2
      have hml : mid.toNat < arr.length := by omega
      simp only [hlr, if_true, readAt_of_lt arr mid 0 hm0 hml, Option.bind_eq_bind,
        Option.some_bind]
      by_cases he : arr.getD mid.toNat 0 = target
      · exact ⟨mid, by rw [if_pos he], Or.inr ⟨hm0, hml, he⟩⟩
      · by_cases hlt : arr.getD mid.toNat 0 < target
        · simp only [he, hlt, if_true, if_false]
          exact ih (mid + 1) right (by omega) hr (by omega)
        · simp only [he, hlt, if_false]
          exact ih left (mid - 1) hl (by omega) (by omega)
    · exact ⟨-1, by simp [hlr], Or.inl rfl⟩

/-- C22: on every buffer of length below `2 ^ 31`, sorted or not, and for
every target, `binarySearch` terminates (any loop fuel above `length` gives
the same result) without a failed read (a read succeeds only at an index in
`0 .. length - 1`), and its result is `-1` or an index `r` with
`0 ≤ r < length` and `B[r] = t`. -/
theorem binarySearch_safe (B : List Nat) (t : Nat) (hlen : B.length < 2 ^ 31) :
    ∃ r : Int, binarySearch B B.length t = some r ∧
      (∀ fuel : Nat, B.length < fuel → binarySearchFuel fuel B B.length t = some r) ∧
      (r = -1 ∨ (0 ≤ r ∧ r < (B.length : Int) ∧ B.getD r.toNat 0 = t)) ∧
      (∀ (i : Int) (v : Nat), readAt B i = some v → 0 ≤ i ∧ i < (B.length : Int)) := by
  have hr : toInt32 (u32Pred B.length) = (B.length : Int) - 1 := by
    rcases Nat.eq_zero_or_pos B.length with h | h
    · rw [h]; exact toInt32_u32Pred_zero
    · exact toInt32_u32Pred _ h hlen
  obtain ⟨r, h1, h2⟩ :=
    binarySearchLoop_safe B t (B.length + 1) 0 ((B.length : Int) - 1) (le_refl _) (by omega)
      (by omega)
  have key : ∀ fuel : Nat, B.length < fuel → binarySearchFuel fuel B B.length t = some r := by
    intro fuel hf
    unfold binarySearchFuel
    rw [hr]
    exact binarySearchLoop_mono B t _ _ _ _ h1 fuel (by omega)
  refine ⟨r, key (B.length + 1) (by omega), key, ?_, fun i v hv => ?_⟩
  · rcases h2 with h | ⟨a, b, c⟩
    · exact Or.inl h
    · exact Or.inr ⟨a, by omega, c⟩
  · have := readAt_some_bounds B i v hv
    exact ⟨this.1, by omega⟩

theorem binarySearch_safe_witness :
    binarySearch [9, 1, 7, 3, 5] 5 3 = some (-1) ∧ binarySearch [9, 1, 7, 3, 5] 5 7 = some 2 ∧
      ∃ r : Int, binarySearch [9, 1, 7, 3, 5] [9, 1, 7, 3, 5].length 3 = some r ∧
        (∀ fuel : Nat, [9, 1, 7, 3, 5].length < fuel →
          binarySearchFuel fuel [9, 1, 7, 3, 5] [9, 1, 7, 3, 5].length 3 = some r) ∧
        (r = -1 ∨ (0 ≤ r ∧ r < ([9, 1, 7, 3, 5].length : Int) ∧
          [9, 1, 7, 3, 5].getD r.toNat 0 = 3)) ∧
        (∀ (i : Int) (v : Nat), readAt [9, 1, 7, 3, 5] i = some v →
          0 ≤ i ∧ i < ([9, 1, 7, 3, 5].length : Int)) :=
  ⟨by decide, by decide, binarySearch_safe [9, 1, 7, 3, 5] 3 (by decide)⟩

/-! ## Identity matrix on `float` values -/

theorem f32_one_mul_fin (a : ℚ) : (1 : F32) * F32.fin a = F32.fin a := by
  show f32Mul (F32.fin 1) (F32.fin a) = F32.fin a
  simp [f32Mul]

theorem f32_zero_mul_fin (a : ℚ) : (0 : F32) * F32.fin a = 0 := by
  show f32Mul (F32.fin 0) (F32.fin a) = F32.fin 0
  simp [f32Mul]

theorem f32_add_zero (v : F32) (h : isFiniteF32 v) : v + 0 = v := by
  cases v with
  | fin a =>
    show f32Add (F32.fin a) (F32.fin 0) = F32.fin a
    simp [f32Add]
  | posInf => exact absurd h (by simp [isFiniteF32])
  | negInf => exact absurd h (by simp [isFiniteF32])
  | nan => exact absurd h (by simp [isFiniteF32])

theorem f32_zero_add (v : F32) (h : isFiniteF32 v) : 0 + v = v := by
  cases v with
  | fin a =>
    show f32Add (F32.fin 0) (F32.fin a) = F32.fin a
    simp [f32Add]
  | posInf => exact absurd h (by simp [isFiniteF32])
  | negInf => exact absurd h (by simp [isFiniteF32])
  | nan => exact absurd h (by simp [isFiniteF32])

theorem fin_of_isFiniteF32 (v : F32) (h : isFiniteF32 v) : ∃ a : ℚ, v = F32.fin a := by
  cases v with
  | fin a => exact ⟨a, rfl⟩
  | posInf => exact absurd h (by simp [isFiniteF32])
  | negInf => exact absurd h (by simp [isFiniteF32])
  | nan => exact absurd h (by simp [isFiniteF32])

theorem transformPoint_identity_finite (V : List F32) (i : Nat)
    (h : ∀ k : Nat, i * 3 ≤ k → k < (i + 1) * 3 → isFiniteF32 (V.getD k 0)) :
    transformPoint identityMatrix V i = V := by
  have m0 : (identityMatrix : List F32).getD 0 0 = 1 := rfl
  have m1 : (identityMatrix : List F32).getD 1 0 = 0 := rfl
  have m2 : (identityMatrix : List F32).getD 2 0 = 0 := rfl
  have m4 : (identityMatrix : List F32).getD 4 0 = 0 := rfl
  have m5 : (identityMatrix : List F32).getD 5 0 = 1 := rfl
  have m6 : (identityMatrix : List F32).getD 6 0 = 0 := rfl
  have m8 : (identityMatrix : List F32).getD 8 0 = 0 := rfl
  have m9 : (identityMatrix : List F32).getD 9 0 = 0 := rfl
  have m10 : (identityMatrix : List F32).getD 10 0 = 1 := rfl
  have m12 : (identityMatrix : List F32).getD 12 0 = 0 := rfl
  have m13 : (identityMatrix : List F32).getD 13 0 = 0 := rfl
  have m14 : (identityMatrix : List F32).getD 14 0 = 0 := rfl
  obtain ⟨a, ha⟩ := fin_of_isFiniteF32 _ (h (i * 3 + 0) (by omega) (by omega))
  obtain ⟨b, hb⟩ := fin_of_isFiniteF32 _ (h (i * 3 + 1) (by omega) (by omega))
  obtain ⟨c, hc⟩ := fin_of_isFiniteF32 _ (h (i * 3 + 2) (by omega) (by omega))
  have fa : isFiniteF32 (F32.fin a) := trivial
  have fb : isFiniteF32 (F32.fin b) := trivial
  have fc : isFiniteF32 (F32.fin c) := trivial
  have f0 : isFiniteF32 (0 : F32) := trivial
  have ex : (1 : F32) * F32.fin a + 0 * F32.fin b + 0 * F32.fin c + 0 = F32.fin a := by
    rw [f32_one_mul_fin, f32_zero_mul_fin, f32_zero_mul_fin, f32_add_zero _ fa,
      f32_add_zero _ fa, f32_add_zero _ fa]
  have ey : (0 : F32) * F32.fin a + 1 * F32.fin b + 0 * F32.fin c + 0 = F32.fin b := by
    rw [f32_one_mul_fin, f32_zero_mul_fin, f32_zero_mul_fin, f32_zero_add _ fb,
      f32_add_zero _ fb, f32_add_zero _ fb]
  have ez : (0 : F32) * F32.fin a + 0 * F32.fin b + 1 * F32.fin c + 0 = F32.fin c := by
    rw [f32_one_mul_fin, f32_zero_mul_fin, f32_zero_mul_fin, f32_zero_add _ f0,
      f32_zero_add _ fc, f32_add_zero _ fc]
  simp only [transformPoint, m0, m1, m2, m4, m5, m6, m8, m9, m10, m12, m13, m14, ha, hb, hc,
    ex, ey, ez]
  rw [← ha, set_getD_self, ← hb, set_getD_self, ← hc, set_getD_self]

theorem transformLoop_identity_finite (V : List F32) (n : Nat) :
    ∀ i : Nat, (∀ k : Nat, i * 3 ≤ k → k < (i + n) * 3 → isFiniteF32 (V.getD k 0)) →
      transformLoop identityMatrix n i V = V := by
  induction n with
  | zero => intro i _; rfl
  | succ n ih =>
    intro i h
    rw [transformLoop, transformPoint_identity_finite V i (fun k h1 h2 => h k h1 (by omega))]
    exact ih (i + 1) (fun k h1 h2 => h k (by omega) (by omega))

/-- C17, the claim as stated fails on `float` values: with the identity
matrix the point `(inf, 1, 2)` becomes `(inf, NaN, NaN)`, because
`0 * inf` is NaN. -/
theorem transformVectors_identity_infinite_coordinate :
    transformVectors [F32.posInf, F32.fin 1, F32.fin 2] identityMatrix 1 =
        [F32.posInf, F32.nan, F32.nan] ∧
      transformVectors [F32.posInf, F32.fin 1, F32.fin 2] identityMatrix 1 ≠
        [F32.posInf, F32.fin 1, F32.fin 2] := by
  decide

/-- C17, amended: for every point buffer and count `n` such that the
coordinates of the `n` points (the entries at index below `3 n`) are finite
`float` values, `transformVectors` with the identity matrix leaves the buffer
unchanged: every coordinate has the same value after the call as before. -/
theorem transformVectors_identity_finite (V : List F32) (n : Nat)
    (hfin : ∀ k : Nat, k < n * 3 → isFiniteF32 (V.getD k 0)) :
    transformVectors V identityMatrix n = V :=
  transformLoop_identity_finite V n 0 (fun k _ h2 => hfin k (by omega))

theorem transformVectors_identity_finite_witness :
    transformVectors
        [F32.fin 1, F32.fin (-2), F32.fin (7 / 2), F32.fin 0, F32.fin 5, F32.fin 6, F32.posInf]
        identityMatrix 2 =
      [F32.fin 1, F32.fin (-2), F32.fin (7 / 2), F32.fin 0, F32.fin 5, F32.fin 6, F32.posInf] :=
  transformVectors_identity_finite
    [F32.fin 1, F32.fin (-2), F32.fin (7 / 2), F32.fin 0, F32.fin 5, F32.fin 6, F32.posInf] 2
    (by
      intro k hk
      have hk' : k = 0 ∨ k = 1 ∨ k = 2 ∨ k = 3 ∨ k = 4 ∨ k = 5 := by omega
      rcases hk' with rfl | rfl | rfl | rfl | rfl | rfl <;> trivial)

end ArrayProcessor
